import Mathlib

/-!
Verification of the ragged/keyed tensor core of `torchrec/sparse/jagged_tensor.py`.

The shallow embedding below models tensors as `List Int` (all tensors involved in
the structural algorithms are 1-D integer tensors; `values`/`weights` entries are
treated as integers, which is faithful for the structural claims since the code
never inspects their numeric type in the operations modelled here).  Machine
integers are modelled by `Int` (Python integers are arbitrary precision, and the
int64 tensors stay far from overflow in every claim considered).  Fallible
operations (Python `assert`, `raise`, `IndexError`, `KeyError`) are modelled with
`Except String`.  Lazily cached derived fields are modelled as explicit `Option`
fields; cache-filling accessors are modelled as functions returning the updated
record where the cache state is observable (`force`, `sync`), and as pure
functions of the underlying fields elsewhere (memoization of a pure computation
is semantically transparent).

The float expressions of `_use_segment_sum_csr` are modelled with exact rational
arithmetic; Python's `int()` truncation toward zero is `py_int` below.
-/

/-- Python list slicing `l[a:b]` for integer bounds: negative indices count from
the end, and both bounds are clamped into `[0, len(l)]`. -/
def pySlice {α : Type} (l : List α) (a b : Int) : List α :=
  let n := l.length
  let lo : Nat := if a < 0 then ((n : Int) + a).toNat else min a.toNat n
  let hi : Nat := if b < 0 then ((n : Int) + b).toNat else min b.toNat n
  (l.take hi).drop lo

/-- Python list slicing with natural-number bounds (`l[a:b]` with `0 ≤ a, b`). -/
def natSlice {α : Type} (l : List α) (a b : Nat) : List α :=
  (l.take b).drop a

/-- Python list indexing `l[i]` for a non-negative index: raises `IndexError`
when out of range. -/
def listIdx {α : Type} (l : List α) (i : Nat) : Except String α :=
  match l.get? i with
  | some x => .ok x
  | none => .error "IndexError: list index out of range"

/-- `_cumsum(o)`: exclusive prefix sum, `ret[0] = 0`, `ret[i+1] = ret[i] + o[i]`
(source `_cumsum`, also the semantics of `fbgemm.asynchronous_complete_cumsum`
used by `_to_offsets`).  Written with an explicit accumulator. -/
def cumsumFrom (acc : Int) : List Int → List Int
  | [] => [acc]
  | x :: xs => acc :: cumsumFrom (acc + x) xs

/-- `_cumsum` / `_to_offsets`: complete cumulative sum starting at 0. -/
def _cumsum (o : List Int) : List Int := cumsumFrom 0 o

/-- `_to_offsets(lengths)` = `asynchronous_complete_cumsum(lengths)`. -/
def _to_offsets (lengths : List Int) : List Int := _cumsum lengths

/-- `_to_lengths(offsets)` = `offsets[1:] - offsets[:-1]` (adjacent differences,
also the semantics of `torch.diff` on a 1-D tensor). -/
def _to_lengths : List Int → List Int
  | [] => []
  | [_] => []
  | a :: b :: rest => (b - a) :: _to_lengths (b :: rest)

/-- Split a list into consecutive chunks of the given sizes
(`torch.split(l, sizes)`; also how `view(-1, s)` rows and fbgemm per-key blocks
are addressed).  A trailing remainder shorter than requested is truncated; all
uses below are under hypotheses making every chunk exact. -/
def splitBySizes {α : Type} : List Nat → List α → List (List α)
  | [], _ => []
  | n :: ns, l => l.take n :: splitBySizes ns (l.drop n)

/-- Python `int()` on a rational value: truncation toward zero (`Int.tdiv`
is T-division, matching CPython's `int(float)`). -/
def py_int (q : ℚ) : Int := Int.tdiv q.num (q.den : Int)

/-- Gather `[l[i] for i in idxs]` with Python `IndexError` semantics. -/
def gatherE {α : Type} (l : List α) (idxs : List Nat) : Except String (List α) :=
  idxs.mapM (fun i => listIdx l i)

/-- `JaggedTensor`: flat values plus optional weights and lazily mutually
derivable lengths/offsets (the two cache slots are the `Option` fields). -/
structure JaggedTensor where
  values : List Int
  weights : Option (List Int)
  lengths : Option (List Int)
  offsets : Option (List Int)
deriving DecidableEq

/-- `JaggedTensor.__init__`: stores the four fields after asserting that at
least one of lengths/offsets is provided (`_assert_offsets_or_lengths_is_provided`).
The integer-dtype assertions hold by construction in this integer model. -/
def JaggedTensor.init (values : List Int) (weights : Option (List Int))
    (lengths offsets : Option (List Int)) : Except String JaggedTensor :=
  if offsets = none ∧ lengths = none then
    .error "Must provide lengths or offsets"
  else
    .ok { values := values, weights := weights, lengths := lengths, offsets := offsets }

/-- `KeyedJaggedTensor`: keys, key-major flat buffers, row addressing, stride
bookkeeping and the lazily derived per-key caches. -/
structure KeyedJaggedTensor where
  keys : List String
  values : List Int
  weights : Option (List Int)
  lengths : Option (List Int)
  offsets : Option (List Int)
  stride : Int
  stride_per_key_per_rank : List (List Int)
  variable_stride_per_key : Bool
  length_per_key : Option (List Int)
  offset_per_key : Option (List Int)
deriving DecidableEq

/-- `_maybe_compute_stride_kjt`: infer the uniform stride when it is omitted.
Python `//` agrees with `Int` division here since all operands are
non-negative. -/
def _maybe_compute_stride_kjt (keys : List String) (stride : Option Int)
    (lengths offsets : Option (List Int)) : Int :=
  match stride with
  | some s => s
  | none =>
    if keys.length = 0 then 0
    else
      match offsets with
      | some o =>
        if 0 < o.length then ((o.length : Int) - 1) / (keys.length : Int)
        else
          match lengths with
          | some l => (l.length : Int) / (keys.length : Int)
          | none => 0
      | none =>
        match lengths with
        | some l => (l.length : Int) / (keys.length : Int)
        | none => 0

/-- `KeyedJaggedTensor.__init__`.  Raises when both `stride` and
`stride_per_key_per_rank` are supplied.  With per-rank strides the instance is
marked variable-stride and `_stride` is the common per-key total, `0` for an
empty list, or the untouched sentinel `-1` when the totals differ; otherwise the
uniform stride is taken or inferred and `stride_per_key_per_rank` is
`[[stride]] * len(keys)`.  Note that, unlike `JaggedTensor.__init__`, nothing
here requires lengths or offsets to be present. -/
def KeyedJaggedTensor.init (keys : List String) (values : List Int)
    (weights : Option (List Int)) (lengths offsets : Option (List Int))
    (stride : Option Int) (stride_per_key_per_rank : Option (List (List Int)))
    (length_per_key offset_per_key : Option (List Int)) :
    Except String KeyedJaggedTensor :=
  match stride_per_key_per_rank with
  | some spr =>
    match stride with
    | some _ =>
      .error "Cannot initialize KJT with both stride and stride_per_key_per_rank"
    | none =>
      let spk := spr.map List.sum
      let strideVal : Int :=
        if spr.isEmpty then 0
        else if spk.all (fun s => s = spk.headD 0) then spk.headD 0
        else -1
      .ok { keys := keys, values := values, weights := weights,
            lengths := lengths, offsets := offsets, stride := strideVal,
            stride_per_key_per_rank := spr, variable_stride_per_key := true,
            length_per_key := length_per_key, offset_per_key := offset_per_key }
  | none =>
    let strideVal := _maybe_compute_stride_kjt keys stride lengths offsets
    .ok { keys := keys, values := values, weights := weights,
          lengths := lengths, offsets := offsets, stride := strideVal,
          stride_per_key_per_rank := List.replicate keys.length [strideVal],
          variable_stride_per_key := false,
          length_per_key := length_per_key, offset_per_key := offset_per_key }

/-- `stride_per_key()`: per-key total strides, `[sum(s) for s in sppr]`
(maintained by `__init__` in both branches; modelled as a derived function). -/
def KeyedJaggedTensor.stride_per_key (k : KeyedJaggedTensor) : List Int :=
  k.stride_per_key_per_rank.map List.sum

/-- `lengths_offset_per_key()`: row-space cumulative key boundaries,
`_cumsum(stride_per_key)`. -/
def KeyedJaggedTensor.lengths_offset_per_key (k : KeyedJaggedTensor) : List Int :=
  _cumsum k.stride_per_key

/-- `lengths()` via `_maybe_compute_lengths`: return the stored lengths or
derive them from offsets; assertion failure when both are absent. -/
def KeyedJaggedTensor.lengthsM (k : KeyedJaggedTensor) : Except String (List Int) :=
  match k.lengths with
  | some l => .ok l
  | none =>
    match k.offsets with
    | some o => .ok (_to_lengths o)
    | none => .error "AssertionError: offsets is None"

/-- `_use_segment_sum_csr`: empirically fit threshold selecting between the bulk
`segment_sum_csr` kernel and a naive per-block sum.  The Python float
expression is modelled with exact rationals; `int(. )` is `py_int` (truncation
toward zero).  Division by `len(stride_per_key)` requires a non-empty list in
Python (ZeroDivisionError otherwise); `ℚ` division by zero yields 0 and all
uses below hypothesize non-emptiness. -/
def _use_segment_sum_csr (stride_per_key : List Int) : Bool :=
  let elements_per_segment : ℚ :=
    (stride_per_key.sum : ℚ) / (stride_per_key.length : ℚ)
  let segment_threshold : Int :=
    py_int ((1.39771 : ℚ) + (0.0000312222 : ℚ) * elements_per_segment
      + (1.63949e-10 : ℚ) * elements_per_segment ^ 2)
  decide ((stride_per_key.length : Int) ≥ segment_threshold)

/-- `fbgemm.segment_sum_csr(1, _to_offsets(stride_per_key), lengths)`: external
segment-sum primitive, summing `lengths` over the windows delimited by the
cumulative offsets of `stride_per_key` (spec §6 contract). -/
def segment_sum_csr (stride_per_key : List Int) (lengths : List Int) : List Int :=
  ((_cumsum stride_per_key).zip (_cumsum stride_per_key).tail).map
    (fun p => (pySlice lengths p.1 p.2).sum)

/-- `_length_per_key_from_stride_per_key`: bulk kernel or naive
`torch.cat([torch.sum(chunk) for chunk in torch.split(lengths, stride_per_key)])`
depending on `_use_segment_sum_csr`.  (`torch.split` requires the sizes to sum
to the tensor length; every use is under that hypothesis.) -/
def _length_per_key_from_stride_per_key (lengths : List Int)
    (stride_per_key : List Int) : List Int :=
  if _use_segment_sum_csr stride_per_key then
    segment_sum_csr stride_per_key lengths
  else
    (splitBySizes (stride_per_key.map Int.toNat) lengths).map List.sum

/-- `torch.sum(l.view(-1, stride), dim=1).tolist()`: reshape into rows of
`stride` elements and sum each row.  `view` requires `stride` to be positive
and to divide the length (it raises otherwise); on that domain this model is
exact. -/
def sumRows (l : List Int) (stride : Int) : List Int :=
  (splitBySizes (List.replicate (l.length / stride.toNat) stride.toNat) l).map
    List.sum

/-- `_maybe_compute_length_per_key`: the element-space aggregate length of each
key, preferring a non-empty offsets tensor, otherwise lengths, otherwise `[]`. -/
def _maybe_compute_length_per_key (keys : List String) (stride : Int)
    (stride_per_key : List Int) (variable_stride_per_key : Bool)
    (length_per_key : Option (List Int)) (lengths offsets : Option (List Int)) :
    List Int :=
  match length_per_key with
  | some l => l
  | none =>
    if keys.length ≠ 0 then
      match offsets with
      | some o =>
        if 0 < o.length then
          if variable_stride_per_key then
            _length_per_key_from_stride_per_key (_to_lengths o) stride_per_key
          else sumRows (_to_lengths o) stride
        else
          match lengths with
          | some l =>
            if variable_stride_per_key then
              _length_per_key_from_stride_per_key l stride_per_key
            else if l.length ≠ 0 then sumRows l stride
            else List.replicate keys.length 0
          | none => []
      | none =>
        match lengths with
        | some l =>
          if variable_stride_per_key then
            _length_per_key_from_stride_per_key l stride_per_key
          else if l.length ≠ 0 then sumRows l stride
          else List.replicate keys.length 0
        | none => []
    else []

/-- `_maybe_compute_offset_per_key`: returns the pair
(length_per_key, offset_per_key), deriving whichever caches are absent. -/
def _maybe_compute_offset_per_key (keys : List String) (stride : Int)
    (stride_per_key : List Int) (variable_stride_per_key : Bool)
    (length_per_key offset_per_key : Option (List Int))
    (lengths offsets : Option (List Int)) : List Int × List Int :=
  match length_per_key with
  | none =>
    let l := _maybe_compute_length_per_key keys stride stride_per_key
      variable_stride_per_key none lengths offsets
    (l, _cumsum l)
  | some l =>
    match offset_per_key with
    | none => (l, _cumsum l)
    | some o => (l, o)

/-- `length_per_key()` as a pure function of the underlying fields. -/
def KeyedJaggedTensor.computeLengthPerKey (k : KeyedJaggedTensor) : List Int :=
  _maybe_compute_length_per_key k.keys k.stride k.stride_per_key
    k.variable_stride_per_key k.length_per_key k.lengths k.offsets

/-- `offset_per_key()` as a pure function of the underlying fields (second
component of `_maybe_compute_offset_per_key`). -/
def KeyedJaggedTensor.computeOffsetPerKey (k : KeyedJaggedTensor) : List Int :=
  (_maybe_compute_offset_per_key k.keys k.stride k.stride_per_key
    k.variable_stride_per_key k.length_per_key k.offset_per_key
    k.lengths k.offsets).2

/-- `sync()`: force `length_per_key` and `offset_per_key` into the caches. -/
def KeyedJaggedTensor.sync (k : KeyedJaggedTensor) : KeyedJaggedTensor :=
  let lpk := k.computeLengthPerKey
  let k1 := { k with length_per_key := some lpk }
  let p := _maybe_compute_offset_per_key k1.keys k1.stride k1.stride_per_key
    k1.variable_stride_per_key k1.length_per_key k1.offset_per_key
    k1.lengths k1.offsets
  { k1 with length_per_key := some p.1, offset_per_key := some p.2 }

/-- `_force_length_offset_computation`: populate whichever of lengths/offsets
is absent (calling the memoizing accessor); no-op when both or neither are
present. -/
def KeyedJaggedTensor.force (k : KeyedJaggedTensor) : KeyedJaggedTensor :=
  match k.offsets, k.lengths with
  | some o, none => { k with lengths := some (_to_lengths o) }
  | none, some l => { k with offsets := some (_to_offsets l) }
  | _, _ => k

/-- The dict comprehension `{key: i for i, key in enumerate(keys)}` of
`_maybe_compute_index_per_key`, as a lookup function: a later duplicate key
overwrites the entry of an earlier one, so lookup returns the index of the
*last* occurrence.  `aux i keys q` scans `keys` whose first element has
enumeration index `i` and keeps the match produced by the latest element. -/
def index_per_key_aux (i : Nat) (keys : List String) (q : String) : Option Nat :=
  match keys with
  | [] => none
  | s :: rest =>
    match index_per_key_aux (i + 1) rest q with
    | some j => some j
    | none => if s = q then some i else none

/-- `index_per_key[q]` for the dict built by `_maybe_compute_index_per_key`. -/
def index_per_key (keys : List String) (q : String) : Option Nat :=
  index_per_key_aux 0 keys q

/-- `KeyedJaggedTensor.__getitem__(key)`: slice the flat buffers at the key's
element-space window of `offset_per_key` and the row lengths at its row-space
window of `lengths_offset_per_key`; `KeyError` when the key is absent. -/
def KeyedJaggedTensor.getItem (k : KeyedJaggedTensor) (key : String) :
    Except String JaggedTensor := do
  let opk := k.computeOffsetPerKey
  let index ←
    match index_per_key k.keys key with
    | some i => Except.ok i
    | none => Except.error "KeyError"
  let start_offset ← listIdx opk index
  let end_offset : Int :=
    if index + 1 < opk.length then opk.getD (index + 1) 0 else start_offset
  let lens ← k.lengthsM
  let a ← listIdx k.lengths_offset_per_key index
  let b ← listIdx k.lengths_offset_per_key (index + 1)
  Except.ok
    { values := pySlice k.values start_offset end_offset,
      weights := k.weights.map (fun w => pySlice w start_offset end_offset),
      lengths := some (pySlice lens a b),
      offsets := none }

/-- One iteration structure of `KeyedJaggedTensor.split`: walk the segments
carrying `start` (keys consumed) and `start_offset` (element offset of the
current boundary).  `end_offset = _offset_per_key[end]` is computed before the
branch, exactly as in the source, so an out-of-range `end` raises before any
piece of that iteration is built.  The three branches mirror the source:
a segment covering all keys returns the original buffers (with the caches
`split` just populated), a zero segment returns empty typed buffers, and the
general case slices values/weights at element-space boundaries and lengths at
row-space boundaries. -/
def KeyedJaggedTensor.splitGo (k : KeyedJaggedTensor) (lpk opk : List Int) :
    List Nat → Nat → Int → Except String (List KeyedJaggedTensor)
  | [], _, _ => .ok []
  | seg :: rest, start, start_offset => do
    let endIdx := start + seg
    let end_offset ← listIdx opk endIdx
    let keysSeg := natSlice k.keys start endIdx
    let strideArg : Option Int :=
      if k.variable_stride_per_key then none else some k.stride
    let spprArg : Option (List (List Int)) :=
      if k.variable_stride_per_key then
        some (natSlice k.stride_per_key_per_rank start endIdx)
      else none
    let piece ←
      if seg = k.keys.length then
        KeyedJaggedTensor.init k.keys k.values k.weights k.lengths k.offsets
          strideArg spprArg (some lpk) (some opk)
      else if seg = 0 then
        KeyedJaggedTensor.init keysSeg []
          (match k.weights with | some _ => some [] | none => none)
          (some []) (some []) strideArg spprArg none none
      else do
        let lens ← k.lengthsM
        let a ← listIdx k.lengths_offset_per_key start
        let b ← listIdx k.lengths_offset_per_key endIdx
        KeyedJaggedTensor.init keysSeg
          (pySlice k.values start_offset end_offset)
          (k.weights.map (fun w => pySlice w start_offset end_offset))
          (some (pySlice lens a b)) none strideArg spprArg
          (some (natSlice lpk start endIdx)) none
    let restPieces ← KeyedJaggedTensor.splitGo k lpk opk rest endIdx end_offset
    .ok (piece :: restPieces)

/-- `KeyedJaggedTensor.split(segments)`. -/
def KeyedJaggedTensor.split (k : KeyedJaggedTensor) (segments : List Nat) :
    Except String (List KeyedJaggedTensor) :=
  let p := _maybe_compute_offset_per_key k.keys k.stride k.stride_per_key
    k.variable_stride_per_key k.length_per_key k.offset_per_key
    k.lengths k.offsets
  KeyedJaggedTensor.splitGo k p.1 p.2 segments 0 0

/-- Block permutation of a flat buffer: split into consecutive blocks of the
given sizes and concatenate the blocks selected by `idxs`
(`fbgemm.permute_1D_sparse_data` / the value part of `permute_2D_sparse_data`;
out-of-range indices are modelled as an error). -/
def blockPermute {α : Type} (sizes : List Int) (xs : List α) (idxs : List Nat) :
    Except String (List α) := do
  let blocks := splitBySizes (sizes.map Int.toNat) xs
  let picked ← gatherE blocks idxs
  pure picked.flatten

/-- `KeyedJaggedTensor.permute(indices)`: gather keys, per-rank strides and
per-key lengths by index, then permute lengths (row-space blocks) and
values/weights (element-space blocks).  The uniform-stride branch models
`permute_2D_sparse_data` on `lengths.view(len(keys), -1)` — row blocks of size
`numel // len(keys)`, value blocks of the corresponding row sums; the
variable-stride branch models the two `_permute_tensor_by_segments` calls with
`stride_per_key` and `length_per_key` block sizes. -/
def KeyedJaggedTensor.permute (k : KeyedJaggedTensor) (indices : List Nat) :
    Except String KeyedJaggedTensor := do
  let length_per_key := k.computeLengthPerKey
  let permuted_keys ← gatherE k.keys indices
  let permuted_sppr ← gatherE k.stride_per_key_per_rank indices
  let permuted_length_per_key ← gatherE length_per_key indices
  let lens ← k.lengthsM
  let res ←
    if k.variable_stride_per_key then do
      let pl ← blockPermute k.stride_per_key lens indices
      let pv ← blockPermute length_per_key k.values indices
      let pw ←
        match k.weights with
        | some w => do
          let x ← blockPermute length_per_key w indices
          pure (some x)
        | none => pure none
      pure (pl, pv, pw)
    else do
      let rowSize : Int := (lens.length : Int) / (k.keys.length : Int)
      let rowBlocks := splitBySizes
        (List.replicate k.keys.length rowSize.toNat) lens
      let pl ← blockPermute (List.replicate k.keys.length rowSize) lens indices
      let valSizes := rowBlocks.map List.sum
      let pv ← blockPermute valSizes k.values indices
      let pw ←
        match k.weights with
        | some w => do
          let x ← blockPermute valSizes w indices
          pure (some x)
        | none => pure none
      pure (pl, pv, pw)
  let strideArg : Option Int :=
    if k.variable_stride_per_key then none else some k.stride
  let spprArg : Option (List (List Int)) :=
    if k.variable_stride_per_key then some permuted_sppr else none
  KeyedJaggedTensor.init permuted_keys res.2.1 res.2.2 (some res.1) none
    strideArg spprArg
    (if 0 < permuted_keys.length then some permuted_length_per_key else none)
    none

/-- Accumulator of the `KeyedJaggedTensor.concat` loop. -/
structure ConcatAcc where
  keys : List String
  values : List Int
  weights : List Int
  lengths : List Int
  sppr : List (List Int)
  stride : Option Int
  has_lpk : Bool
  lpk : List Int
deriving DecidableEq

/-- The per-batch loop of `KeyedJaggedTensor.concat`: raise on mixed
weightedness, accumulate buffers, accumulate per-rank strides in
variable-stride mode or check scalar-stride agreement otherwise, and carry
`length_per_key` only while every input had it cached. -/
def concatGo (is_weighted variable_stride : Bool) :
    List KeyedJaggedTensor → ConcatAcc → Except String ConcatAcc
  | [], acc => .ok acc
  | kjt :: rest, acc => do
    if kjt.weights.isSome ≠ is_weighted then
      Except.error "Can't merge weighted KJT with unweighted KJT"
    else do
      let has := if kjt.length_per_key.isNone then false else acc.has_lpk
      let lpk := match kjt.length_per_key with
        | some l => if has then acc.lpk ++ l else acc.lpk
        | none => acc.lpk
      let ws ←
        if is_weighted then
          match kjt.weights with
          | some w => Except.ok (acc.weights ++ w)
          | none => Except.error "This (Keyed)JaggedTensor doesn't have weights."
        else Except.ok acc.weights
      let lens ← kjt.lengthsM
      let (sppr, stride) ←
        if variable_stride then
          Except.ok (acc.sppr ++ kjt.stride_per_key_per_rank, acc.stride)
        else
          match acc.stride with
          | none => Except.ok (acc.sppr, some kjt.stride)
          | some s =>
            if s = kjt.stride then Except.ok (acc.sppr, some s)
            else Except.error "strides must be consistent for all KJTs"
      concatGo is_weighted variable_stride rest
        { keys := acc.keys ++ kjt.keys, values := acc.values ++ kjt.values,
          weights := ws, lengths := acc.lengths ++ lens, sppr := sppr,
          stride := stride, has_lpk := has, lpk := lpk }

/-- `KeyedJaggedTensor.concat(kjt_list)`. -/
def KeyedJaggedTensor.concat (ks : List KeyedJaggedTensor) :
    Except String KeyedJaggedTensor :=
  match ks with
  | [] => .error "Can't concat empty KJT list"
  | k0 :: _ => do
    let is_weighted := k0.weights.isSome
    let vlist := ks.map (fun k => k.variable_stride_per_key)
    if ¬ (vlist.all (fun b => b = true) ∨ vlist.all (fun b => b = false)) then
      Except.error "variable stride per key must be consistent for all KJTs"
    else do
      let variable_stride := vlist.all (fun b => b = true)
      let acc ← concatGo is_weighted variable_stride ks
        ⟨[], [], [], [], [], none, true, []⟩
      KeyedJaggedTensor.init acc.keys acc.values
        (if is_weighted then some acc.weights else none)
        (some acc.lengths) none
        (if variable_stride then none else acc.stride)
        (if variable_stride then some acc.sppr else none)
        (if acc.has_lpk then some acc.lpk else none) none

/-- `_check_attributes` on optional attributes: both absent is equal, one
absent is unequal, both present compares the values (exact equality models
`torch.allclose` on integer data, including its size precheck, and
`operator.eq`). -/
def _check_eq_opt {α : Type} [DecidableEq α] : Option α → Option α → Bool
  | some x, some y => decide (x = y)
  | none, none => true
  | _, _ => false

/-- `kjt_is_equal(kjt_1, kjt_2)`: key count and order, values, then — after
forcing the missing lengths/offsets halves and `sync()` on both operands —
lengths, weights, offsets, length_per_key, offset_per_key and stride under the
both-absent-or-both-equal rule.  The Python function propagates any exception
raised inside the `sync()` calls (for example `view(-1, stride)` on a lengths
tensor whose size the stride does not divide); this model is total, so it is
exact only on operands whose shape invariants make those `sync()` calls
succeed, and every theorem about it carries such validity hypotheses. -/
def kjt_is_equal (kjt_1 kjt_2 : KeyedJaggedTensor) : Bool :=
  if kjt_1.keys.length ≠ kjt_2.keys.length then false
  else if ¬ ((kjt_1.keys.zip kjt_2.keys).all fun p => p.1 = p.2) then false
  else if ¬ (kjt_1.values.length = kjt_2.values.length
      ∧ kjt_1.values = kjt_2.values : Prop) then false
  else
    let a := KeyedJaggedTensor.sync (KeyedJaggedTensor.force kjt_1)
    let b := KeyedJaggedTensor.sync (KeyedJaggedTensor.force kjt_2)
    _check_eq_opt a.lengths b.lengths
    && _check_eq_opt a.weights b.weights
    && _check_eq_opt a.offsets b.offsets
    && _check_eq_opt a.length_per_key b.length_per_key
    && _check_eq_opt a.offset_per_key b.offset_per_key
    && decide (a.stride = b.stride)

/-! ### Basic lemmas about the list primitives -/

theorem splitBySizes_length {α : Type} (ns : List Nat) (l : List α) :
    (splitBySizes ns l).length = ns.length := by
  induction ns generalizing l with
  | nil => rfl
  | cons n ns ih => simp [splitBySizes, ih]

theorem flatten_splitBySizes {α : Type} (ns : List Nat) (l : List α) :
    (splitBySizes ns l).flatten = l.take ns.sum := by
  induction ns generalizing l with
  | nil => simp [splitBySizes]
  | cons n ns ih =>
    simp only [splitBySizes, List.flatten_cons, ih, List.sum_cons]
    rw [List.take_add]

theorem flatten_splitBySizes_eq {α : Type} {ns : List Nat} {l : List α}
    (h : ns.sum = l.length) : (splitBySizes ns l).flatten = l := by
  rw [flatten_splitBySizes, h, List.take_length]

theorem map_length_splitBySizes {α : Type} {ns : List Nat} {l : List α}
    (h : ns.sum ≤ l.length) : (splitBySizes ns l).map List.length = ns := by
  induction ns generalizing l with
  | nil => rfl
  | cons n ns ih =>
    simp only [List.sum_cons] at h
    simp only [splitBySizes, List.map_cons]
    have h1 : (List.take n l).length = n := by rw [List.length_take]; omega
    have h2 : List.map List.length (splitBySizes ns (List.drop n l)) = ns :=
      ih (by rw [List.length_drop]; omega)
    rw [h1, h2]

theorem splitBySizes_flatten {α : Type} (bs : List (List α)) :
    splitBySizes (bs.map List.length) bs.flatten = bs := by
  induction bs with
  | nil => rfl
  | cons b bs ih =>
    simp only [List.map_cons, List.flatten_cons, splitBySizes]
    rw [List.take_left, List.drop_left, ih]

theorem sum_map_sum_splitBySizes {ns : List Nat} {l : List Int}
    (h : ns.sum = l.length) :
    ((splitBySizes ns l).map List.sum).sum = l.sum := by
  rw [← List.sum_flatten, flatten_splitBySizes_eq h]

theorem cumsumFrom_length (a : Int) (l : List Int) :
    (cumsumFrom a l).length = l.length + 1 := by
  induction l generalizing a with
  | nil => rfl
  | cons x xs ih => simp [cumsumFrom, ih]

theorem cumsumFrom_getD (a : Int) (l : List Int) (i : Nat) (h : i ≤ l.length) :
    (cumsumFrom a l).getD i 0 = a + (l.take i).sum := by
  induction l generalizing a i with
  | nil =>
    have hi : i = 0 := by simpa using h
    subst hi
    simp [cumsumFrom]
  | cons x xs ih =>
    cases i with
    | zero => simp [cumsumFrom]
    | succ i =>
      simp only [cumsumFrom, List.getD_cons_succ, List.take_succ_cons,
        List.sum_cons]
      rw [ih (a + x) i (by simpa using h)]
      ring

theorem cumsum_getD (l : List Int) (i : Nat) (h : i ≤ l.length) :
    (_cumsum l).getD i 0 = (l.take i).sum := by
  rw [_cumsum, cumsumFrom_getD 0 l i h, zero_add]

theorem cumsum_getD_length (l : List Int) :
    (_cumsum l).getD l.length 0 = l.sum := by
  rw [cumsum_getD l l.length le_rfl, List.take_length]

theorem take_sum_nonneg_mono {l : List Int} (hpos : ∀ x ∈ l, 0 ≤ x)
    {i j : Nat} (hij : i ≤ j) : (l.take i).sum ≤ (l.take j).sum := by
  have : l.take j = l.take i ++ (l.drop i).take (j - i) := by
    rw [← List.take_add]
    congr 1
    omega
  rw [this, List.sum_append]
  have : 0 ≤ ((l.drop i).take (j - i)).sum := by
    apply List.sum_nonneg
    intro x hx
    exact hpos x (List.mem_of_mem_drop (List.mem_of_mem_take hx))
  omega

theorem cumsum_nonneg {l : List Int} (hpos : ∀ x ∈ l, 0 ≤ x)
    {i : Nat} (h : i ≤ l.length) : 0 ≤ (_cumsum l).getD i 0 := by
  rw [cumsum_getD l i h]
  apply List.sum_nonneg
  intro x hx
  exact hpos x (List.mem_of_mem_take hx)

theorem cumsum_mono {l : List Int} (hpos : ∀ x ∈ l, 0 ≤ x)
    {i j : Nat} (hij : i ≤ j) (hj : j ≤ l.length) :
    (_cumsum l).getD i 0 ≤ (_cumsum l).getD j 0 := by
  rw [cumsum_getD l i (le_trans hij hj), cumsum_getD l j hj]
  exact take_sum_nonneg_mono hpos hij

theorem _to_lengths_cumsumFrom (l : List Int) : ∀ a, _to_lengths (cumsumFrom a l) = l := by
  induction l with
  | nil => intro a; rfl
  | cons x xs ih =>
    intro a
    cases xs with
    | nil => simp [cumsumFrom, _to_lengths]
    | cons y ys =>
      have hshape : cumsumFrom (a + x) (y :: ys) = (a + x) :: cumsumFrom (a + x + y) ys := rfl
      simp only [cumsumFrom, hshape, _to_lengths]
      have e1 : a + x - a = x := by ring
      rw [e1, ← hshape, ih (a + x)]

theorem _to_lengths_cumsum (l : List Int) : _to_lengths (_cumsum l) = l :=
  _to_lengths_cumsumFrom l 0

theorem pySlice_of_bounds {α : Type} {l : List α} {a b : Int}
    (h0 : 0 ≤ a) (hab : a ≤ b) (hb : b ≤ (l.length : Int)) :
    pySlice l a b = (l.drop a.toNat).take (b.toNat - a.toNat) := by
  have hb0 : 0 ≤ b := le_trans h0 hab
  have haN : a.toNat ≤ l.length := by omega
  have hbN : b.toNat ≤ l.length := by omega
  simp only [pySlice, if_neg (by omega : ¬ a < 0), if_neg (by omega : ¬ b < 0)]
  rw [min_eq_left haN, min_eq_left hbN, List.drop_take]

theorem pySlice_append {α : Type} {l : List α} {a b c : Int}
    (h0 : 0 ≤ a) (hab : a ≤ b) (hbc : b ≤ c) (hc : c ≤ (l.length : Int)) :
    pySlice l a b ++ pySlice l b c = pySlice l a c := by
  rw [pySlice_of_bounds h0 hab (le_trans hbc hc),
    pySlice_of_bounds (le_trans h0 hab) hbc hc,
    pySlice_of_bounds h0 (le_trans hab hbc) hc]
  have h1 : List.drop b.toNat l = List.drop (b.toNat - a.toNat) (List.drop a.toNat l) := by
    rw [List.drop_drop]
    congr 1
    omega
  rw [h1, ← List.take_add]
  congr 1
  omega

theorem pySlice_zero_length {α : Type} (l : List α) :
    pySlice l 0 (l.length : Int) = l := by
  rw [pySlice_of_bounds le_rfl (by positivity) le_rfl]
  simp

theorem pySlice_empty {α : Type} (l : List α) (a : Int) (h0 : 0 ≤ a)
    (h : a ≤ (l.length : Int)) : pySlice l a a = [] := by
  rw [pySlice_of_bounds h0 le_rfl h]
  simp

theorem listIdx_ok {α : Type} (d : α) {l : List α} {i : Nat} (h : i < l.length) :
    listIdx l i = .ok (l.getD i d) := by
  simp only [listIdx, List.get?_eq_getElem?, List.getElem?_eq_getElem h,
    List.getD_eq_getElem l d h]

theorem gatherE_ok {α : Type} (d : α) {l : List α} {idxs : List Nat}
    (h : ∀ i ∈ idxs, i < l.length) :
    gatherE l idxs = .ok (idxs.map (fun i => l.getD i d)) := by
  induction idxs with
  | nil => rfl
  | cons i is ih =>
    have hi : i < l.length := h i (by simp)
    have hrest : ∀ j ∈ is, j < l.length := fun j hj => h j (by simp [hj])
    have ihr := ih hrest
    simp only [gatherE] at ihr
    simp only [gatherE, List.mapM_cons, listIdx_ok d hi, ihr, List.map_cons]
    rfl

theorem getD_of_lt {α : Type} (l : List α) (d : α) {i : Nat} (h : i < l.length) :
    l.getD i d = l[i] := List.getD_eq_getElem l d h

theorem mem_of_mem_splitBySizes {α : Type} {ns : List Nat} {l : List α}
    {c : List α} (hc : c ∈ splitBySizes ns l) : ∀ x ∈ c, x ∈ l := by
  induction ns generalizing l with
  | nil => simp [splitBySizes] at hc
  | cons n ns ih =>
    simp only [splitBySizes, List.mem_cons] at hc
    rcases hc with hc | hc
    · subst hc; exact fun x hx => List.mem_of_mem_take hx
    · exact fun x hx => List.mem_of_mem_drop (ih hc x hx)

theorem cumsumFrom_shape (a : Int) (l : List Int) :
    cumsumFrom a l =
      a :: (match l with | [] => [] | x :: xs => cumsumFrom (a + x) xs) := by
  cases l <;> rfl

/-- Windows of consecutive cumulative offsets, summed, coincide with sums over
chunks of the corresponding sizes. -/
theorem zip_window_sums (spk : List Int) (l : List Int) :
    ∀ a : Int, 0 ≤ a → (∀ x ∈ spk, 0 ≤ x) →
    a + spk.sum ≤ (l.length : Int) →
    ((cumsumFrom a spk).zip (cumsumFrom a spk).tail).map
        (fun p => (pySlice l p.1 p.2).sum)
      = (splitBySizes (spk.map Int.toNat) (l.drop a.toNat)).map List.sum := by
  induction spk with
  | nil => intro a _ _ _; rfl
  | cons x xs ih =>
    intro a ha hpos hbound
    have hx : 0 ≤ x := hpos x (by simp)
    have hxs : ∀ y ∈ xs, 0 ≤ y := fun y hy => hpos y (by simp [hy])
    have hxs_sum : 0 ≤ xs.sum := List.sum_nonneg hxs
    have hbound' : (a + x) + xs.sum ≤ (l.length : Int) := by
      simp only [List.sum_cons] at hbound
      omega
    have hax : a + x ≤ (l.length : Int) := by omega
    have hzip :
        ((cumsumFrom a (x :: xs)).zip (cumsumFrom a (x :: xs)).tail)
          = (a, a + x) ::
            ((cumsumFrom (a + x) xs).zip (cumsumFrom (a + x) xs).tail) := by
      cases xs <;> rfl
    rw [hzip, List.map_cons]
    have hnat : (a + x).toNat - a.toNat = x.toNat := by omega
    have hhead : (pySlice l a (a + x)).sum
        = ((l.drop a.toNat).take x.toNat).sum := by
      rw [pySlice_of_bounds ha (by omega) hax, hnat]
    have htail := ih (a + x) (by omega) hxs hbound'
    rw [hhead, htail]
    simp only [List.map_cons, splitBySizes, List.map_cons]
    have hdrop : List.drop (a + x).toNat l
        = List.drop x.toNat (List.drop a.toNat l) := by
      rw [List.drop_drop]
      congr 1
      omega
    rw [hdrop]

/-- The `segment_sum_csr` primitive agrees with naive chunk sums on
non-negative sizes fitting in the buffer. -/
theorem segment_sum_csr_eq {spk l : List Int}
    (hpos : ∀ x ∈ spk, 0 ≤ x) (hb : spk.sum ≤ (l.length : Int)) :
    segment_sum_csr spk l = (splitBySizes (spk.map Int.toNat) l).map List.sum := by
  have := zip_window_sums spk l 0 le_rfl hpos (by omega)
  simpa [segment_sum_csr, _cumsum] using this

/-- Validity of a freshly constructed `KeyedJaggedTensor`: `L` is the canonical
row-lengths array (stored directly, or as its cumulative offsets), rows are
non-negative and account for every element of `values`, weights parallel
values, per-key strides are consistent bookkeeping summing to the row count,
and the lazy per-key caches are still unset. -/
structure ValidKJT (k : KeyedJaggedTensor) (L : List Int) : Prop where
  src : (k.lengths = some L ∧ k.offsets = none)
    ∨ (k.lengths = none ∧ k.offsets = some (_cumsum L))
  len_nonneg : ∀ x ∈ L, 0 ≤ x
  len_total : L.sum = (k.values.length : Int)
  weights_len : ∀ w, k.weights = some w → w.length = k.values.length
  sppr_len : k.stride_per_key_per_rank.length = k.keys.length
  spk_nonneg : ∀ s ∈ k.stride_per_key, 0 ≤ s
  spk_total : k.stride_per_key.sum = (L.length : Int)
  uniform_sppr : k.variable_stride_per_key = false →
    k.stride_per_key_per_rank = List.replicate k.keys.length [k.stride]
      ∧ 0 ≤ k.stride
  uniform_offsets_pos : k.variable_stride_per_key = false → k.lengths = none →
    0 < k.stride
  lpk_none : k.length_per_key = none
  opk_none : k.offset_per_key = none
  keys_pos : 0 < k.keys.length

theorem lengthsM_valid {k : KeyedJaggedTensor} {L : List Int}
    (h : ValidKJT k L) : k.lengthsM = .ok L := by
  rcases h.src with ⟨hl, _⟩ | ⟨hl, ho⟩
  · simp [KeyedJaggedTensor.lengthsM, hl]
  · simp [KeyedJaggedTensor.lengthsM, hl, ho, _to_lengths_cumsum]

theorem splitBySizes_zeros {α : Type} (n : Nat) (l : List α) :
    splitBySizes (List.replicate n 0) l = List.replicate n [] := by
  induction n generalizing l with
  | zero => rfl
  | succ m ih => simp [splitBySizes, List.replicate_succ, ih]

theorem map_sum_replicate_single (n : Nat) (s : Int) :
    (List.replicate n ([s] : List Int)).map List.sum = List.replicate n s := by
  rw [List.map_replicate]
  simp

theorem sum_map_toNat {l : List Int} (h : ∀ x ∈ l, 0 ≤ x) :
    (((l.map Int.toNat).sum : Nat) : Int) = l.sum := by
  induction l with
  | nil => rfl
  | cons x xs ih =>
    have hx : 0 ≤ x := h x (by simp)
    have hxs : ∀ y ∈ xs, 0 ≤ y := fun y hy => h y (by simp [hy])
    simp only [List.map_cons, List.sum_cons]
    rw [Nat.cast_add, ih hxs, Int.toNat_of_nonneg hx]

/-- Under validity, `length_per_key()` is exactly the list of per-key block
sums of the canonical row-lengths array, chunked by `stride_per_key`. -/
theorem computeLengthPerKey_valid {k : KeyedJaggedTensor} {L : List Int}
    (h : ValidKJT k L) :
    k.computeLengthPerKey
      = (splitBySizes (k.stride_per_key.map Int.toNat) L).map List.sum := by
  have hn : k.keys.length ≠ 0 := Nat.pos_iff_ne_zero.mp h.keys_pos
  have hspkN : (((k.stride_per_key.map Int.toNat).sum : Nat) : Int)
      = (L.length : Int) := by
    rw [sum_map_toNat h.spk_nonneg, h.spk_total]
  cases hvar : k.variable_stride_per_key with
  | true =>
    have hbranch : ∀ e : List Int, e = L →
        _length_per_key_from_stride_per_key e k.stride_per_key
          = (splitBySizes (k.stride_per_key.map Int.toNat) L).map List.sum := by
      intro e he
      subst he
      unfold _length_per_key_from_stride_per_key
      cases hcsr : _use_segment_sum_csr k.stride_per_key
      · simp only [Bool.false_eq_true, if_false]
      · simp only [if_true]
        exact segment_sum_csr_eq h.spk_nonneg (le_of_eq h.spk_total)
    rcases h.src with ⟨hl, ho⟩ | ⟨hl, ho⟩
    · simp only [KeyedJaggedTensor.computeLengthPerKey,
        _maybe_compute_length_per_key, h.lpk_none, hl, ho, hvar, if_pos hn]
      exact hbranch L rfl
    · simp only [KeyedJaggedTensor.computeLengthPerKey,
        _maybe_compute_length_per_key, h.lpk_none, hl, ho, hvar, if_pos hn,
        if_pos (by rw [_cumsum, cumsumFrom_length]; omega :
          0 < (_cumsum L).length)]
      exact hbranch (_to_lengths (_cumsum L)) (_to_lengths_cumsum L)
  | false =>
    obtain ⟨hsppr, hs0⟩ := h.uniform_sppr hvar
    have hspk : k.stride_per_key = List.replicate k.keys.length k.stride := by
      rw [KeyedJaggedTensor.stride_per_key, hsppr, map_sum_replicate_single]
    have hspkT : k.stride_per_key.map Int.toNat
        = List.replicate k.keys.length k.stride.toNat := by
      rw [hspk, List.map_replicate]
    have hstr : k.stride = (k.stride.toNat : Int) := (Int.toNat_of_nonneg hs0).symm
    have hLlen : L.length = k.keys.length * k.stride.toNat := by
      have hsum := h.spk_total
      rw [hspk, List.sum_replicate, nsmul_eq_mul, hstr] at hsum
      exact_mod_cast hsum.symm
    have hrows : L.length ≠ 0 →
        sumRows L k.stride
          = (splitBySizes (k.stride_per_key.map Int.toNat) L).map List.sum := by
      intro hne
      have hspos : 0 < k.stride.toNat := by
        rcases Nat.eq_zero_or_pos k.stride.toNat with hz | hp
        · rw [hz, Nat.mul_zero] at hLlen; omega
        · exact hp
      have hdiv : L.length / k.stride.toNat = k.keys.length := by
        rw [hLlen, Nat.mul_div_cancel _ hspos]
      rw [sumRows, hdiv, hspkT]
    rcases h.src with ⟨hl, ho⟩ | ⟨hl, ho⟩
    · simp only [KeyedJaggedTensor.computeLengthPerKey,
        _maybe_compute_length_per_key, h.lpk_none, hl, ho, hvar, if_pos hn]
      by_cases hLe : L.length ≠ 0
      · simp only [if_pos hLe]
        exact hrows hLe
      · push_neg at hLe
        have hLnil : L = [] := List.eq_nil_of_length_eq_zero hLe
        have hstride0 : k.stride.toNat = 0 := by
          rcases Nat.mul_eq_zero.mp (hLe ▸ hLlen).symm with hz | hz
          · omega
          · exact hz
        simp only [hLe, ne_eq, not_true_eq_false, if_false]
        rw [hspkT, hstride0, splitBySizes_zeros, hLnil, List.map_replicate]
        rfl
    · have hspos : 0 < k.stride := h.uniform_offsets_pos hvar hl
      have hLne : L.length ≠ 0 := by
        have hsp : 0 < k.stride.toNat := by omega
        have := Nat.mul_pos h.keys_pos hsp
        omega
      simp only [KeyedJaggedTensor.computeLengthPerKey,
        _maybe_compute_length_per_key, h.lpk_none, hl, ho, hvar, if_pos hn,
        if_pos (by rw [_cumsum, cumsumFrom_length]; omega :
          0 < (_cumsum L).length)]
      rw [_to_lengths_cumsum]
      exact hrows hLne

/-- On non-negative rationals Python `int()` coincides with the floor. -/
theorem py_int_floor {q : ℚ} (h : 0 ≤ q) : py_int q = ⌊q⌋ := by
  rw [Rat.floor_def, py_int]
  have hnum : 0 ≤ q.num := Rat.num_nonneg.mpr h
  obtain ⟨m, hm⟩ := Int.eq_ofNat_of_zero_le hnum
  rw [hm, ← Int.ofNat_tdiv]
  exact Int.natCast_div m q.den

/-! ### Claim theorems -/

/-- C9: for the concrete KeyedJaggedTensor with values `[1..8]`, offsets
`[0,2,2,3,4,5,8]`, keys `["F0","F1"]` and uniform stride 3, the derived
aggregates are `length_per_key == [3,5]` and `offset_per_key == [0,3,8]`. -/
theorem C9_concrete_aggregates :
    (KeyedJaggedTensor.init ["F0", "F1"] [1, 2, 3, 4, 5, 6, 7, 8] none none
        (some [0, 2, 2, 3, 4, 5, 8]) (some 3) none none none).map
      (fun k => (k.computeLengthPerKey, k.computeOffsetPerKey))
      = .ok ([3, 5], [0, 3, 8]) := by rfl

/-- C10: constructing with `stride_per_key_per_rank` never raises, and the
`stride()` accessor reports the common per-key total when all per-key sums
agree, `0` for an empty list, and the sentinel `-1` when the totals differ. -/
theorem C10_variable_stride_accessor (keys : List String) (values : List Int)
    (spr : List (List Int)) :
    ∃ k, KeyedJaggedTensor.init keys values none none none none (some spr)
        none none = .ok k
      ∧ (spr = [] → k.stride = 0)
      ∧ (∀ c : Int, spr ≠ [] → (∀ t ∈ spr.map List.sum, t = c) → k.stride = c)
      ∧ ((∃ a ∈ spr.map List.sum, ∃ b ∈ spr.map List.sum, a ≠ b) →
          k.stride = -1) := by
  refine ⟨_, rfl, ?_, ?_, ?_⟩
  · intro h
    subst h
    rfl
  · intro c hne hall
    obtain ⟨p, ps, hp⟩ := List.exists_cons_of_ne_nil hne
    subst hp
    have hhead : (List.map List.sum (p :: ps)).headD 0 = p.sum := rfl
    have hc : p.sum = c := hall p.sum (by simp)
    show (if (p :: ps).isEmpty then (0 : Int)
        else if ((p :: ps).map List.sum).all
            (fun s => s = ((p :: ps).map List.sum).headD 0) then
          ((p :: ps).map List.sum).headD 0
        else -1) = c
    rw [if_neg (by simp), if_pos, hhead, hc]
    rw [List.all_eq_true]
    intro x hx
    have := hall x hx
    simp [this, hhead, hc]
  · rintro ⟨a, ha, b, hb, hab⟩
    have hne : spr ≠ [] := by
      intro h
      subst h
      simp at ha
    show (if spr.isEmpty then (0 : Int)
        else if (spr.map List.sum).all
            (fun s => s = (spr.map List.sum).headD 0) then
          (spr.map List.sum).headD 0
        else -1) = -1
    rw [if_neg (by simpa using hne), if_neg]
    intro hall
    rw [List.all_eq_true] at hall
    have h1 := hall a ha
    have h2 := hall b hb
    simp only [decide_eq_true_eq] at h1 h2
    exact hab (h1.trans h2.symm)

/-- C10 witness: at `spr = [[1],[2]]` the totals differ, so the accessor
reports `-1` without raising. -/
theorem C10_witness :
    ∃ k, KeyedJaggedTensor.init ["a", "b"] [] none none none none
        (some [[1], [2]]) none none = .ok k ∧ k.stride = -1 := by
  obtain ⟨k, hk, _, _, hdiff⟩ :=
    C10_variable_stride_accessor ["a", "b"] [] [[1], [2]]
  exact ⟨k, hk, hdiff ⟨1, by simp, 2, by simp, by decide⟩⟩

/-- C5 counterexample: a KeyedJaggedTensor constructed with neither lengths
nor offsets succeeds (the claim predicts a construction failure). -/
theorem C5_counterexample :
    KeyedJaggedTensor.init ["a"] [1, 2] none none none none none none none
      = .ok { keys := ["a"], values := [1, 2], weights := none, lengths := none,
              offsets := none, stride := 0, stride_per_key_per_rank := [[0]],
              variable_stride_per_key := false, length_per_key := none,
              offset_per_key := none } := by rfl

/-- C5 amended: `JaggedTensor` construction fails when neither lengths nor
offsets is supplied and succeeds when at least one is; `KeyedJaggedTensor`
construction (without per-rank strides) succeeds in either case — its
`__init__` performs no such check. -/
theorem C5_amended (keys : List String) (values : List Int)
    (weights : Option (List Int)) (lengths offsets : Option (List Int)) :
    (lengths = none ∧ offsets = none →
      JaggedTensor.init values weights lengths offsets
          = .error "Must provide lengths or offsets"
        ∧ ∃ k, KeyedJaggedTensor.init keys values weights lengths offsets
            none none none none = .ok k)
    ∧ (lengths ≠ none ∨ offsets ≠ none →
        (∃ jt, JaggedTensor.init values weights lengths offsets = .ok jt)
        ∧ ∃ k, KeyedJaggedTensor.init keys values weights lengths offsets
            none none none none = .ok k) := by
  constructor
  · rintro ⟨h1, h2⟩
    subst h1
    subst h2
    exact ⟨rfl, _, rfl⟩
  · intro h
    constructor
    · refine ⟨⟨values, weights, lengths, offsets⟩, ?_⟩
      unfold JaggedTensor.init
      rw [if_neg (by tauto)]
    · exact ⟨_, rfl⟩

/-- C5 witness: at `keys = ["a"]`, `values = [1]`, neither lengths nor offsets:
the JaggedTensor constructor errors while the KeyedJaggedTensor constructor
returns a value. -/
theorem C5_witness :
    JaggedTensor.init [1] none none none = .error "Must provide lengths or offsets"
    ∧ ∃ k, KeyedJaggedTensor.init ["a"] [1] none none none none none none none
        = .ok k :=
  (C5_amended ["a"] [1] none none none).1 ⟨rfl, rfl⟩

/-- C6 counterexample: with a single segment of stride 5 the code selects the
bulk `segment_sum_csr` primitive, although `num_segments = 1` is *not* at least
the claimed real-valued threshold `1.39771 + 0.0000312222·avg + 1.63949e-10·avg²`
(the code compares against the `int()`-truncated threshold). -/
theorem C6_counterexample :
    _use_segment_sum_csr [5] = true
    ∧ ¬ ((1 : ℚ) ≥ (1.39771 : ℚ) + (0.0000312222 : ℚ) * 5
        + (1.63949e-10 : ℚ) * 5 ^ 2) := by
  constructor
  · have heps : ((([5] : List Int).sum : ℚ) / (([5] : List Int).length : ℚ))
        = (5 : ℚ) := by norm_num
    have hfloor : ⌊(1.39771 : ℚ) + (0.0000312222 : ℚ) * 5
        + (1.63949e-10 : ℚ) * 5 ^ 2⌋ = 1 := by
      rw [Int.floor_eq_iff]
      norm_num
    have hpy : py_int ((1.39771 : ℚ) + (0.0000312222 : ℚ) * 5
        + (1.63949e-10 : ℚ) * 5 ^ 2) = 1 := by
      rw [py_int_floor (by norm_num), hfloor]
    simp only [_use_segment_sum_csr, heps, hpy]
    norm_num
  · norm_num

/-- C6 amended: for every non-empty list of non-negative per-key strides with
mean block size `avg`, the variable-stride `length_per_key` computation selects
the bulk segmented-sum primitive exactly when the number of segments is at
least the `int()`-truncated threshold
`⌊1.39771 + 0.0000312222·avg + 1.63949e-10·avg²⌋` (not the raw real-valued
expression), and otherwise sums each block independently. -/
theorem C6_amended_threshold (spk : List Int) (lengths : List Int)
    (_hne : spk ≠ []) (hpos : ∀ x ∈ spk, 0 ≤ x) (avg : ℚ) (thr : Int)
    (hA : avg = (spk.sum : ℚ) / (spk.length : ℚ))
    (hT : thr = ⌊(1.39771 : ℚ) + (0.0000312222 : ℚ) * avg
        + (1.63949e-10 : ℚ) * avg ^ 2⌋) :
    (_use_segment_sum_csr spk = true ↔ (spk.length : Int) ≥ thr)
    ∧ ((spk.length : Int) ≥ thr →
        _length_per_key_from_stride_per_key lengths spk
          = segment_sum_csr spk lengths)
    ∧ (¬ (spk.length : Int) ≥ thr →
        _length_per_key_from_stride_per_key lengths spk
          = (splitBySizes (spk.map Int.toNat) lengths).map List.sum) := by
  have havg : 0 ≤ avg := by
    rw [hA]
    apply div_nonneg
    · exact_mod_cast List.sum_nonneg hpos
    · positivity
  have hq : 0 ≤ (1.39771 : ℚ) + (0.0000312222 : ℚ) * avg
      + (1.63949e-10 : ℚ) * avg ^ 2 := by
    have h1 : 0 ≤ (0.0000312222 : ℚ) * avg := mul_nonneg (by norm_num) havg
    have h2 : 0 ≤ (1.63949e-10 : ℚ) * avg ^ 2 :=
      mul_nonneg (by norm_num) (sq_nonneg avg)
    have h3 : (0 : ℚ) ≤ 1.39771 := by norm_num
    linarith
  rw [hA] at hq
  have hiff : _use_segment_sum_csr spk = true ↔ (spk.length : Int) ≥ thr := by
    rw [hT, hA]
    simp only [_use_segment_sum_csr, py_int_floor hq]
    exact decide_eq_true_iff
  refine ⟨hiff, ?_, ?_⟩
  · intro h
    unfold _length_per_key_from_stride_per_key
    rw [if_pos (hiff.mpr h)]
  · intro h
    unfold _length_per_key_from_stride_per_key
    rw [if_neg (fun hc => h (hiff.mp hc))]

/-- C6 witness: instantiation at `stride_per_key = [5]`. -/
theorem C6_witness :
    ([5] : List Int) ≠ [] ∧
    (let avg : ℚ := ((([5] : List Int).sum : ℚ) / (([5] : List Int).length : ℚ))
     let thr : Int := ⌊(1.39771 : ℚ) + (0.0000312222 : ℚ) * avg
        + (1.63949e-10 : ℚ) * avg ^ 2⌋
     (_use_segment_sum_csr [5] = true ↔ ((([5] : List Int).length : Int) ≥ thr))
     ∧ (((([5] : List Int).length : Int) ≥ thr) →
        _length_per_key_from_stride_per_key [1, 2, 3, 4, 5] [5]
          = segment_sum_csr [5] [1, 2, 3, 4, 5])
     ∧ (¬ ((([5] : List Int).length : Int) ≥ thr) →
        _length_per_key_from_stride_per_key [1, 2, 3, 4, 5] [5]
          = (splitBySizes (([5] : List Int).map Int.toNat) [1, 2, 3, 4, 5]).map
              List.sum)) :=
  ⟨by decide, C6_amended_threshold [5] [1, 2, 3, 4, 5] (by decide) (by decide)
    _ _ rfl rfl⟩

theorem computeLengthPerKey_length {k : KeyedJaggedTensor} {L : List Int}
    (h : ValidKJT k L) : k.computeLengthPerKey.length = k.keys.length := by
  rw [computeLengthPerKey_valid h, List.length_map, splitBySizes_length,
    List.length_map, KeyedJaggedTensor.stride_per_key, List.length_map,
    h.sppr_len]

theorem spkN_sum {k : KeyedJaggedTensor} {L : List Int} (h : ValidKJT k L) :
    (k.stride_per_key.map Int.toNat).sum = L.length := by
  have := sum_map_toNat h.spk_nonneg
  rw [h.spk_total] at this
  exact_mod_cast this

theorem computeLengthPerKey_sum {k : KeyedJaggedTensor} {L : List Int}
    (h : ValidKJT k L) : k.computeLengthPerKey.sum = (k.values.length : Int) := by
  rw [computeLengthPerKey_valid h, sum_map_sum_splitBySizes (spkN_sum h),
    h.len_total]

theorem computeLengthPerKey_nonneg {k : KeyedJaggedTensor} {L : List Int}
    (h : ValidKJT k L) : ∀ x ∈ k.computeLengthPerKey, 0 ≤ x := by
  rw [computeLengthPerKey_valid h]
  intro x hx
  obtain ⟨c, hc, hcx⟩ := List.mem_map.mp hx
  subst hcx
  exact List.sum_nonneg (fun y hy => h.len_nonneg y (mem_of_mem_splitBySizes hc y hy))

theorem computeOffsetPerKey_valid {k : KeyedJaggedTensor} {L : List Int}
    (h : ValidKJT k L) :
    k.computeOffsetPerKey = _cumsum k.computeLengthPerKey := by
  rw [KeyedJaggedTensor.computeOffsetPerKey]
  rw [_maybe_compute_offset_per_key.eq_def, h.lpk_none,
    KeyedJaggedTensor.computeLengthPerKey, h.lpk_none]

theorem lengths_offset_per_key_length (k : KeyedJaggedTensor) :
    k.lengths_offset_per_key.length = k.stride_per_key_per_rank.length + 1 := by
  rw [KeyedJaggedTensor.lengths_offset_per_key, _cumsum, cumsumFrom_length,
    KeyedJaggedTensor.stride_per_key, List.length_map]

theorem index_per_key_aux_none {keys : List String} {q : String}
    (h : ∀ x ∈ keys, x ≠ q) : ∀ i, index_per_key_aux i keys q = none := by
  induction keys with
  | nil => intro i; rfl
  | cons s rest ih =>
    intro i
    have hs : s ≠ q := h s (by simp)
    have hrest : ∀ x ∈ rest, x ≠ q := fun x hx => h x (by simp [hx])
    rw [index_per_key_aux, ih hrest (i + 1), if_neg hs]

theorem index_per_key_aux_last {keys : List String} {q : String} {j : Nat}
    (hj : j < keys.length) (hkey : keys.get ⟨j, hj⟩ = q)
    (hlast : ∀ t (ht : t < keys.length), j < t → keys.get ⟨t, ht⟩ ≠ q) :
    ∀ i, index_per_key_aux i keys q = some (i + j) := by
  induction keys generalizing j with
  | nil => exact absurd hj (by simp)
  | cons s rest ih =>
    intro i
    cases j with
    | zero =>
      have hs : s = q := hkey
      have hrest : ∀ x ∈ rest, x ≠ q := by
        intro x hx
        obtain ⟨⟨t, ht⟩, hxt⟩ := List.mem_iff_get.mp hx
        have hne := hlast (t + 1) (by simpa using ht) (Nat.succ_pos t)
        rw [show ((s :: rest).get ⟨t + 1, by simpa using ht⟩) = rest.get ⟨t, ht⟩
          from rfl, hxt] at hne
        exact hne
      rw [index_per_key_aux, index_per_key_aux_none hrest (i + 1)]
      simp [hs]
    | succ j' =>
      have hj' : j' < rest.length := by simpa using hj
      have hkey' : rest.get ⟨j', hj'⟩ = q := hkey
      have hlast' : ∀ t (ht : t < rest.length), j' < t → rest.get ⟨t, ht⟩ ≠ q := by
        intro t ht hjt
        have := hlast (t + 1) (by simpa using ht) (by omega)
        simpa using this
      rw [index_per_key_aux, ih hj' hkey' hlast' (i + 1)]
      simp only [Option.some.injEq]
      omega

theorem index_per_key_last {keys : List String} {q : String} {j : Nat}
    (hj : j < keys.length) (hkey : keys.get ⟨j, hj⟩ = q)
    (hlast : ∀ t (ht : t < keys.length), j < t → keys.get ⟨t, ht⟩ ≠ q) :
    index_per_key keys q = some j := by
  rw [index_per_key, index_per_key_aux_last hj hkey hlast 0, Nat.zero_add]

/-- C1 counterexample: with keys `["a","b","a"]`, stride 1, lengths `[1,1,1]`
and values `[10,20,30]`, `__getitem__("a")` returns values `[30]` — the window
of the *last* occurrence (index 2), not the first-occurrence window `[10]`,
and `index_per_key` maps `"a"` to 2, not 0. -/
theorem C1_counterexample :
    (KeyedJaggedTensor.init ["a", "b", "a"] [10, 20, 30] none (some [1, 1, 1])
        none (some 1) none none none).map
      (fun k => ((KeyedJaggedTensor.getItem k "a").map JaggedTensor.values,
        index_per_key k.keys "a"))
      = .ok (.ok [30], some 2)
    ∧ pySlice ([10, 20, 30] : List Int) 0 1 = [10]
    ∧ ([30] : List Int) ≠ [10] :=
  ⟨by rfl, by rfl, by decide⟩

/-- C1 amended: for every valid KeyedJaggedTensor and a key name, keyed lookup
resolves to the *last* occurrence of the name: `index_per_key` maps the name to
the latest position `j` at which it appears, and `__getitem__` returns the
JaggedTensor sliced at the element-space window `offset_per_key[j..j+1]` and
the row-space window `lengths_offset_per_key[j..j+1]` of that position. -/
theorem C1_amended_lookup_last {k : KeyedJaggedTensor} {L : List Int}
    (h : ValidKJT k L) (key : String) (j : Nat) (hj : j < k.keys.length)
    (hkey : k.keys.get ⟨j, hj⟩ = key)
    (hlast : ∀ t (ht : t < k.keys.length), j < t → k.keys.get ⟨t, ht⟩ ≠ key) :
    index_per_key k.keys key = some j
    ∧ KeyedJaggedTensor.getItem k key = .ok
        { values := pySlice k.values
            ((_cumsum k.computeLengthPerKey).getD j 0)
            ((_cumsum k.computeLengthPerKey).getD (j + 1) 0),
          weights := k.weights.map (fun w => pySlice w
            ((_cumsum k.computeLengthPerKey).getD j 0)
            ((_cumsum k.computeLengthPerKey).getD (j + 1) 0)),
          lengths := some (pySlice L (k.lengths_offset_per_key.getD j 0)
            (k.lengths_offset_per_key.getD (j + 1) 0)),
          offsets := none } := by
  have hidx := index_per_key_last hj hkey hlast
  refine ⟨hidx, ?_⟩
  have hopk : k.computeOffsetPerKey = _cumsum k.computeLengthPerKey :=
    computeOffsetPerKey_valid h
  have hopklen : (_cumsum k.computeLengthPerKey).length = k.keys.length + 1 := by
    rw [_cumsum, cumsumFrom_length, computeLengthPerKey_length h]
  have hlopklen : k.lengths_offset_per_key.length = k.keys.length + 1 := by
    rw [lengths_offset_per_key_length, h.sppr_len]
  have h1 : listIdx (_cumsum k.computeLengthPerKey) j
      = .ok ((_cumsum k.computeLengthPerKey).getD j 0) :=
    listIdx_ok 0 (by omega)
  have h2 : listIdx k.lengths_offset_per_key j
      = .ok (k.lengths_offset_per_key.getD j 0) :=
    listIdx_ok 0 (by omega)
  have h3 : listIdx k.lengths_offset_per_key (j + 1)
      = .ok (k.lengths_offset_per_key.getD (j + 1) 0) :=
    listIdx_ok 0 (by omega)
  have hcond : j + 1 < (_cumsum k.computeLengthPerKey).length := by omega
  simp only [KeyedJaggedTensor.getItem, hopk, hidx, h1, h2, h3,
    lengthsM_valid h, bind, Except.bind, if_pos hcond]

/-- C1 witness: the amended lookup theorem applied to the concrete batch with
keys `["a","b","a"]`, lengths `[1,1,1]`, values `[10,20,30]`, last occurrence
of `"a"` at position 2. -/
theorem C1_witness :
    index_per_key
        (KeyedJaggedTensor.mk ["a", "b", "a"] [10, 20, 30] none (some [1, 1, 1])
          none 1 [[1], [1], [1]] false none none).keys "a" = some 2
    ∧ KeyedJaggedTensor.getItem
        (KeyedJaggedTensor.mk ["a", "b", "a"] [10, 20, 30] none (some [1, 1, 1])
          none 1 [[1], [1], [1]] false none none) "a"
      = .ok
        { values := pySlice
            (KeyedJaggedTensor.mk ["a", "b", "a"] [10, 20, 30] none
              (some [1, 1, 1]) none 1 [[1], [1], [1]] false none none).values
            ((_cumsum (KeyedJaggedTensor.mk ["a", "b", "a"] [10, 20, 30] none
              (some [1, 1, 1]) none 1 [[1], [1], [1]] false none
              none).computeLengthPerKey).getD 2 0)
            ((_cumsum (KeyedJaggedTensor.mk ["a", "b", "a"] [10, 20, 30] none
              (some [1, 1, 1]) none 1 [[1], [1], [1]] false none
              none).computeLengthPerKey).getD (2 + 1) 0),
          weights := (KeyedJaggedTensor.mk ["a", "b", "a"] [10, 20, 30] none
            (some [1, 1, 1]) none 1 [[1], [1], [1]] false none
            none).weights.map (fun w => pySlice w
            ((_cumsum (KeyedJaggedTensor.mk ["a", "b", "a"] [10, 20, 30] none
              (some [1, 1, 1]) none 1 [[1], [1], [1]] false none
              none).computeLengthPerKey).getD 2 0)
            ((_cumsum (KeyedJaggedTensor.mk ["a", "b", "a"] [10, 20, 30] none
              (some [1, 1, 1]) none 1 [[1], [1], [1]] false none
              none).computeLengthPerKey).getD (2 + 1) 0)),
          lengths := some (pySlice [1, 1, 1]
            ((KeyedJaggedTensor.mk ["a", "b", "a"] [10, 20, 30] none
              (some [1, 1, 1]) none 1 [[1], [1], [1]] false none
              none).lengths_offset_per_key.getD 2 0)
            ((KeyedJaggedTensor.mk ["a", "b", "a"] [10, 20, 30] none
              (some [1, 1, 1]) none 1 [[1], [1], [1]] false none
              none).lengths_offset_per_key.getD (2 + 1) 0)),
          offsets := none } :=
  C1_amended_lookup_last
    (k := KeyedJaggedTensor.mk ["a", "b", "a"] [10, 20, 30] none
      (some [1, 1, 1]) none 1 [[1], [1], [1]] false none none)
    (L := [1, 1, 1])
    { src := Or.inl ⟨rfl, rfl⟩
      len_nonneg := by decide
      len_total := by decide
      weights_len := by intro w hw; simp at hw
      sppr_len := rfl
      spk_nonneg := by decide
      spk_total := by decide
      uniform_sppr := fun _ => ⟨rfl, by decide⟩
      uniform_offsets_pos := by intro _ hl; simp at hl
      lpk_none := rfl
      opk_none := rfl
      keys_pos := by decide }
    "a" 2 (by decide) (by decide) (by intro t ht h2; simp at ht; omega)

theorem sync_fields {k : KeyedJaggedTensor} (hopk : k.offset_per_key = none) :
    (k.sync).length_per_key = some k.computeLengthPerKey
    ∧ (k.sync).offset_per_key = some (_cumsum k.computeLengthPerKey) := by
  unfold KeyedJaggedTensor.sync
  simp [_maybe_compute_offset_per_key.eq_def, hopk]

/-- C2: for every valid KeyedJaggedTensor (built from lengths or offsets),
after `sync()` the quantities `len(values)`, `offset_per_key[-1]` and
`sum(length_per_key)` all agree, with `offset_per_key` having
`num_keys + 1` entries starting at 0. -/
theorem C2_sync_invariant {k : KeyedJaggedTensor} {L : List Int}
    (h : ValidKJT k L) :
    ∃ lpk opk, (k.sync).length_per_key = some lpk
      ∧ (k.sync).offset_per_key = some opk
      ∧ opk.getD (opk.length - 1) 0 = (k.values.length : Int)
      ∧ lpk.sum = (k.values.length : Int)
      ∧ opk.length = k.keys.length + 1
      ∧ opk.getD 0 0 = 0 := by
  obtain ⟨hf1, hf2⟩ := sync_fields h.opk_none
  refine ⟨k.computeLengthPerKey, _cumsum k.computeLengthPerKey, hf1, hf2,
    ?_, computeLengthPerKey_sum h, ?_, ?_⟩
  · have hlen : (_cumsum k.computeLengthPerKey).length
        = k.computeLengthPerKey.length + 1 := by
      rw [_cumsum, cumsumFrom_length]
    rw [hlen, Nat.add_sub_cancel, cumsum_getD_length, computeLengthPerKey_sum h]
  · rw [_cumsum, cumsumFrom_length, computeLengthPerKey_length h]
  · rw [cumsum_getD _ 0 (by omega)]
    rfl

/-- C2 witness: the synced aggregates of the concrete batch with
values `[1..8]`, offsets `[0,2,2,3,4,5,8]`, two keys and stride 3. -/
theorem C2_witness :
    ∃ lpk opk,
      ((KeyedJaggedTensor.mk ["F0", "F1"] [1, 2, 3, 4, 5, 6, 7, 8] none none
        (some [0, 2, 2, 3, 4, 5, 8]) 3 [[3], [3]] false none none).sync).length_per_key
        = some lpk
      ∧ ((KeyedJaggedTensor.mk ["F0", "F1"] [1, 2, 3, 4, 5, 6, 7, 8] none none
        (some [0, 2, 2, 3, 4, 5, 8]) 3 [[3], [3]] false none none).sync).offset_per_key
        = some opk
      ∧ opk.getD (opk.length - 1) 0
          = ((KeyedJaggedTensor.mk ["F0", "F1"] [1, 2, 3, 4, 5, 6, 7, 8] none none
            (some [0, 2, 2, 3, 4, 5, 8]) 3 [[3], [3]] false none
            none).values.length : Int)
      ∧ lpk.sum = ((KeyedJaggedTensor.mk ["F0", "F1"] [1, 2, 3, 4, 5, 6, 7, 8]
            none none (some [0, 2, 2, 3, 4, 5, 8]) 3 [[3], [3]] false none
            none).values.length : Int)
      ∧ opk.length = (KeyedJaggedTensor.mk ["F0", "F1"] [1, 2, 3, 4, 5, 6, 7, 8]
            none none (some [0, 2, 2, 3, 4, 5, 8]) 3 [[3], [3]] false none
            none).keys.length + 1
      ∧ opk.getD 0 0 = 0 :=
  C2_sync_invariant
    (k := KeyedJaggedTensor.mk ["F0", "F1"] [1, 2, 3, 4, 5, 6, 7, 8] none none
      (some [0, 2, 2, 3, 4, 5, 8]) 3 [[3], [3]] false none none)
    (L := [2, 0, 1, 1, 1, 3])
    { src := Or.inr ⟨rfl, by decide⟩
      len_nonneg := by decide
      len_total := by decide
      weights_len := by intro w hw; simp at hw
      sppr_len := rfl
      spk_nonneg := by decide
      spk_total := by decide
      uniform_sppr := fun _ => ⟨rfl, by decide⟩
      uniform_offsets_pos := fun _ _ => by decide
      lpk_none := rfl
      opk_none := rfl
      keys_pos := by decide }

theorem zip_all_self (l : List String) :
    (l.zip l).all (fun p => p.1 = p.2) = true := by
  induction l with
  | nil => rfl
  | cons x xs ih => simpa using ih

theorem _check_eq_opt_refl {α : Type} [DecidableEq α] (x : Option α) :
    _check_eq_opt x x = true := by
  cases x <;> simp [_check_eq_opt]

theorem kjt_is_equal_of_same (k1 k2 : KeyedJaggedTensor)
    (hkeys : k1.keys = k2.keys) (hvals : k1.values = k2.values)
    (hfs : (k1.force).sync = (k2.force).sync) : kjt_is_equal k1 k2 = true := by
  unfold kjt_is_equal
  rw [if_neg (by rw [hkeys]; simp), if_neg (by rw [hkeys]; simp [zip_all_self]),
    if_neg (by rw [hvals]; simp), hfs]
  simp [_check_eq_opt_refl]

/-- C8: two well-formed KeyedJaggedTensors describing the same logical data,
one built from lengths only and the other from the corresponding cumulative
offsets only (same keys, values, weights), compare equal under `kjt_is_equal`:
the equality check forces each operand's missing addressing array into
existence before comparison.  The validity hypotheses confine the statement to
inputs on which the `sync()` calls inside `kjt_is_equal` raise nothing (in
particular `lengths.view(-1, stride)` is well-shaped), the domain on which the
total `sumRows` model is exact. -/
theorem C8_lengths_vs_offsets_equal (keys : List String) (v : List Int)
    (w : Option (List Int)) (L : List Int) (k1 k2 : KeyedJaggedTensor)
    (h1 : KeyedJaggedTensor.init keys v w (some L) none none none none none
      = .ok k1)
    (h2 : KeyedJaggedTensor.init keys v w none (some (_cumsum L)) none none
      none none = .ok k2)
    (_hv1 : ValidKJT k1 L) (_hv2 : ValidKJT k2 L) :
    kjt_is_equal k1 k2 = true := by
  simp only [KeyedJaggedTensor.init, Except.ok.injEq] at h1 h2
  subst h1
  subst h2
  have hstride : _maybe_compute_stride_kjt keys none none (some (_cumsum L))
      = _maybe_compute_stride_kjt keys none (some L) none := by
    by_cases hk : keys.length = 0
    · simp [_maybe_compute_stride_kjt, hk]
    · have hpos : 0 < (_cumsum L).length := by
        rw [_cumsum, cumsumFrom_length]; omega
      simp only [_maybe_compute_stride_kjt, if_neg hk, _cumsum,
        cumsumFrom_length]
      push_cast
      ring_nf
      rw [if_pos (by omega)]
  refine kjt_is_equal_of_same _ _ rfl rfl ?_
  have hforce1 : KeyedJaggedTensor.force
      { keys := keys, values := v, weights := w, lengths := some L,
        offsets := none,
        stride := _maybe_compute_stride_kjt keys none (some L) none,
        stride_per_key_per_rank :=
          List.replicate keys.length [_maybe_compute_stride_kjt keys none (some L) none],
        variable_stride_per_key := false, length_per_key := none,
        offset_per_key := none }
      = { keys := keys, values := v, weights := w, lengths := some L,
          offsets := some (_cumsum L),
          stride := _maybe_compute_stride_kjt keys none (some L) none,
          stride_per_key_per_rank :=
            List.replicate keys.length [_maybe_compute_stride_kjt keys none (some L) none],
          variable_stride_per_key := false, length_per_key := none,
          offset_per_key := none } := rfl
  have hforce2 : KeyedJaggedTensor.force
      { keys := keys, values := v, weights := w, lengths := none,
        offsets := some (_cumsum L),
        stride := _maybe_compute_stride_kjt keys none none (some (_cumsum L)),
        stride_per_key_per_rank :=
          List.replicate keys.length
            [_maybe_compute_stride_kjt keys none none (some (_cumsum L))],
        variable_stride_per_key := false, length_per_key := none,
        offset_per_key := none }
      = { keys := keys, values := v, weights := w, lengths := some L,
          offsets := some (_cumsum L),
          stride := _maybe_compute_stride_kjt keys none (some L) none,
          stride_per_key_per_rank :=
            List.replicate keys.length [_maybe_compute_stride_kjt keys none (some L) none],
          variable_stride_per_key := false, length_per_key := none,
          offset_per_key := none } := by
    show ({ keys := keys, values := v, weights := w,
            lengths := some (_to_lengths (_cumsum L)),
            offsets := some (_cumsum L),
            stride := _maybe_compute_stride_kjt keys none none (some (_cumsum L)),
            stride_per_key_per_rank :=
              List.replicate keys.length
                [_maybe_compute_stride_kjt keys none none (some (_cumsum L))],
            variable_stride_per_key := false, length_per_key := none,
            offset_per_key := none } : KeyedJaggedTensor) = _
    rw [_to_lengths_cumsum, hstride]
  rw [hforce1, hforce2]

/-- C8 witness: concrete valid two-key batch, lengths-only versus
offsets-only, with both validity hypotheses discharged. -/
theorem C8_witness :
    KeyedJaggedTensor.init ["x", "y"] [5, 6, 7] none (some [1, 2]) none none
        none none none
      = .ok (KeyedJaggedTensor.mk ["x", "y"] [5, 6, 7] none (some [1, 2])
          none 1 [[1], [1]] false none none)
    ∧ KeyedJaggedTensor.init ["x", "y"] [5, 6, 7] none none
        (some (_cumsum [1, 2])) none none none none
      = .ok (KeyedJaggedTensor.mk ["x", "y"] [5, 6, 7] none none
          (some (_cumsum [1, 2])) 1 [[1], [1]] false none none)
    ∧ ValidKJT (KeyedJaggedTensor.mk ["x", "y"] [5, 6, 7] none (some [1, 2])
        none 1 [[1], [1]] false none none) [1, 2]
    ∧ ValidKJT (KeyedJaggedTensor.mk ["x", "y"] [5, 6, 7] none none
        (some (_cumsum [1, 2])) 1 [[1], [1]] false none none) [1, 2]
    ∧ kjt_is_equal
        (KeyedJaggedTensor.mk ["x", "y"] [5, 6, 7] none (some [1, 2]) none 1
          [[1], [1]] false none none)
        (KeyedJaggedTensor.mk ["x", "y"] [5, 6, 7] none none
          (some (_cumsum [1, 2])) 1 [[1], [1]] false none none) = true := by
  have hv1 : ValidKJT (KeyedJaggedTensor.mk ["x", "y"] [5, 6, 7] none
      (some [1, 2]) none 1 [[1], [1]] false none none) [1, 2] :=
    { src := Or.inl ⟨rfl, rfl⟩
      len_nonneg := by decide
      len_total := by decide
      weights_len := by intro w2 hw2; simp at hw2
      sppr_len := rfl
      spk_nonneg := by decide
      spk_total := by decide
      uniform_sppr := fun _ => ⟨rfl, by decide⟩
      uniform_offsets_pos := by intro _ hl; simp at hl
      lpk_none := rfl
      opk_none := rfl
      keys_pos := by decide }
  have hv2 : ValidKJT (KeyedJaggedTensor.mk ["x", "y"] [5, 6, 7] none none
      (some (_cumsum [1, 2])) 1 [[1], [1]] false none none) [1, 2] :=
    { src := Or.inr ⟨rfl, rfl⟩
      len_nonneg := by decide
      len_total := by decide
      weights_len := by intro w2 hw2; simp at hw2
      sppr_len := rfl
      spk_nonneg := by decide
      spk_total := by decide
      uniform_sppr := fun _ => ⟨rfl, by decide⟩
      uniform_offsets_pos := fun _ _ => by decide
      lpk_none := rfl
      opk_none := rfl
      keys_pos := by decide }
  exact ⟨rfl, rfl, hv1, hv2,
    C8_lengths_vs_offsets_equal ["x", "y"] [5, 6, 7] none [1, 2] _ _ rfl rfl
      hv1 hv2⟩

theorem listIdx_error {α : Type} {l : List α} {i : Nat} (h : l.length ≤ i) :
    listIdx l i = .error "IndexError: list index out of range" := by
  have hn : l.get? i = none := List.get?_eq_none.mpr h
  unfold listIdx
  rw [hn]

theorem natSlice_eq_pySlice {α : Type} (l : List α) (a b : Nat) :
    natSlice l a b = pySlice l (a : Int) (b : Int) := by
  simp only [natSlice, pySlice, if_neg (by omega : ¬ (a : Int) < 0),
    if_neg (by omega : ¬ (b : Int) < 0), Int.toNat_natCast]
  have htake : l.take (min b l.length) = l.take b := by
    rw [← List.take_take, List.take_length]
  rw [htake]
  by_cases ha : a ≤ l.length
  · rw [min_eq_left ha]
  · rw [min_eq_right (by omega)]
    rw [List.drop_eq_nil_of_le (by rw [List.length_take]; omega),
      List.drop_eq_nil_of_le (by rw [List.length_take]; omega)]

theorem natSlice_zero_length {α : Type} (l : List α) :
    natSlice l 0 l.length = l := by
  simp [natSlice]

theorem exceptMapM_cons {α β : Type} (f : α → Except String β) (x : α)
    (xs : List α) {y : β} {ys : List β} (hx : f x = .ok y)
    (hxs : xs.mapM f = .ok ys) : (x :: xs).mapM f = .ok (y :: ys) := by
  rw [List.mapM_cons, hx, hxs]
  rfl

theorem maybe_pair_valid {k : KeyedJaggedTensor} {L : List Int}
    (h : ValidKJT k L) :
    _maybe_compute_offset_per_key k.keys k.stride k.stride_per_key
      k.variable_stride_per_key k.length_per_key k.offset_per_key
      k.lengths k.offsets
    = (k.computeLengthPerKey, _cumsum k.computeLengthPerKey) := by
  rw [_maybe_compute_offset_per_key.eq_def, h.lpk_none,
    KeyedJaggedTensor.computeLengthPerKey, h.lpk_none]

theorem valid_spk_length {k : KeyedJaggedTensor} {L : List Int}
    (h : ValidKJT k L) : k.stride_per_key.length = k.keys.length := by
  rw [KeyedJaggedTensor.stride_per_key, List.length_map, h.sppr_len]

theorem valid_opk_nonneg {k : KeyedJaggedTensor} {L : List Int}
    (h : ValidKJT k L) {i : Nat} (hi : i ≤ k.keys.length) :
    0 ≤ (_cumsum k.computeLengthPerKey).getD i 0 :=
  cumsum_nonneg (computeLengthPerKey_nonneg h)
    (by rw [computeLengthPerKey_length h]; exact hi)

theorem valid_opk_mono {k : KeyedJaggedTensor} {L : List Int}
    (h : ValidKJT k L) {i j : Nat} (hij : i ≤ j) (hj : j ≤ k.keys.length) :
    (_cumsum k.computeLengthPerKey).getD i 0
      ≤ (_cumsum k.computeLengthPerKey).getD j 0 :=
  cumsum_mono (computeLengthPerKey_nonneg h) hij
    (by rw [computeLengthPerKey_length h]; exact hj)

theorem valid_opk_zero {k : KeyedJaggedTensor} {L : List Int}
    (_h : ValidKJT k L) : (_cumsum k.computeLengthPerKey).getD 0 0 = 0 := by
  rw [cumsum_getD _ 0 (by omega)]
  rfl

theorem valid_opk_last {k : KeyedJaggedTensor} {L : List Int}
    (h : ValidKJT k L) :
    (_cumsum k.computeLengthPerKey).getD k.keys.length 0
      = (k.values.length : Int) := by
  have := cumsum_getD_length k.computeLengthPerKey
  rw [computeLengthPerKey_length h] at this
  rw [this, computeLengthPerKey_sum h]

theorem valid_opk_le {k : KeyedJaggedTensor} {L : List Int}
    (h : ValidKJT k L) {i : Nat} (hi : i ≤ k.keys.length) :
    (_cumsum k.computeLengthPerKey).getD i 0 ≤ (k.values.length : Int) := by
  rw [← valid_opk_last h]
  exact valid_opk_mono h hi le_rfl

theorem valid_opk_length {k : KeyedJaggedTensor} {L : List Int}
    (h : ValidKJT k L) :
    (_cumsum k.computeLengthPerKey).length = k.keys.length + 1 := by
  rw [_cumsum, cumsumFrom_length, computeLengthPerKey_length h]

theorem valid_lopk_nonneg {k : KeyedJaggedTensor} {L : List Int}
    (h : ValidKJT k L) {i : Nat} (hi : i ≤ k.keys.length) :
    0 ≤ k.lengths_offset_per_key.getD i 0 :=
  cumsum_nonneg h.spk_nonneg (by rw [valid_spk_length h]; exact hi)

theorem valid_lopk_mono {k : KeyedJaggedTensor} {L : List Int}
    (h : ValidKJT k L) {i j : Nat} (hij : i ≤ j) (hj : j ≤ k.keys.length) :
    k.lengths_offset_per_key.getD i 0 ≤ k.lengths_offset_per_key.getD j 0 :=
  cumsum_mono h.spk_nonneg hij (by rw [valid_spk_length h]; exact hj)

theorem valid_lopk_zero {k : KeyedJaggedTensor} {L : List Int}
    (_h : ValidKJT k L) : k.lengths_offset_per_key.getD 0 0 = 0 := by
  rw [KeyedJaggedTensor.lengths_offset_per_key, cumsum_getD _ 0 (by omega)]
  rfl

theorem valid_lopk_last {k : KeyedJaggedTensor} {L : List Int}
    (h : ValidKJT k L) :
    k.lengths_offset_per_key.getD k.keys.length 0 = (L.length : Int) := by
  have := cumsum_getD_length k.stride_per_key
  rw [valid_spk_length h] at this
  rw [KeyedJaggedTensor.lengths_offset_per_key, this, h.spk_total]

theorem valid_lopk_le {k : KeyedJaggedTensor} {L : List Int}
    (h : ValidKJT k L) {i : Nat} (hi : i ≤ k.keys.length) :
    k.lengths_offset_per_key.getD i 0 ≤ (L.length : Int) := by
  rw [← valid_lopk_last h]
  exact valid_lopk_mono h hi le_rfl

theorem valid_lopk_length {k : KeyedJaggedTensor} {L : List Int}
    (h : ValidKJT k L) :
    k.lengths_offset_per_key.length = k.keys.length + 1 := by
  rw [lengths_offset_per_key_length, h.sppr_len]

theorem init_uniform_eval (keys : List String) (values : List Int)
    (w : Option (List Int)) (l o : Option (List Int)) (s : Int)
    (lpk opk : Option (List Int)) :
    KeyedJaggedTensor.init keys values w l o (some s) none lpk opk
      = .ok { keys := keys, values := values, weights := w, lengths := l,
              offsets := o, stride := s,
              stride_per_key_per_rank := List.replicate keys.length [s],
              variable_stride_per_key := false, length_per_key := lpk,
              offset_per_key := opk } := rfl

theorem init_variable_eval (keys : List String) (values : List Int)
    (w : Option (List Int)) (l o : Option (List Int)) (spr : List (List Int))
    (lpk opk : Option (List Int)) :
    KeyedJaggedTensor.init keys values w l o none (some spr) lpk opk
      = .ok { keys := keys, values := values, weights := w, lengths := l,
              offsets := o,
              stride := if spr.isEmpty then 0
                else if (spr.map List.sum).all
                    (fun s => s = (spr.map List.sum).headD 0) then
                  (spr.map List.sum).headD 0
                else -1,
              stride_per_key_per_rank := spr, variable_stride_per_key := true,
              length_per_key := lpk, offset_per_key := opk } := rfl

theorem natSlice_append {α : Type} (l : List α) {a b c : Nat} (hab : a ≤ b)
    (hbc : b ≤ c) (hc : c ≤ l.length) :
    natSlice l a b ++ natSlice l b c = natSlice l a c := by
  rw [natSlice_eq_pySlice, natSlice_eq_pySlice, natSlice_eq_pySlice]
  exact pySlice_append (by omega) (by omega) (by omega) (by omega)

theorem natSlice_self_empty {α : Type} (l : List α) (a : Nat) :
    natSlice l a a = [] := by
  apply List.drop_eq_nil_of_le
  rw [List.length_take]
  omega

/-- Characterization of `splitGo` on a valid batch when the segments fit in
the key count: it succeeds and the pieces' buffers are the consecutive
element-space / row-space / key-space windows. -/
theorem splitGo_spec {k : KeyedJaggedTensor} {L : List Int} (h : ValidKJT k L) :
    ∀ (segs : List Nat) (start : Nat),
      start + segs.sum ≤ k.keys.length →
      ∃ pieces,
        KeyedJaggedTensor.splitGo k k.computeLengthPerKey
            (_cumsum k.computeLengthPerKey) segs start
            ((_cumsum k.computeLengthPerKey).getD start 0) = .ok pieces
        ∧ pieces.length = segs.length
        ∧ (pieces.map KeyedJaggedTensor.values).flatten
            = pySlice k.values ((_cumsum k.computeLengthPerKey).getD start 0)
                ((_cumsum k.computeLengthPerKey).getD (start + segs.sum) 0)
        ∧ (∃ ls, pieces.mapM KeyedJaggedTensor.lengthsM = .ok ls
            ∧ ls.flatten = pySlice L (k.lengths_offset_per_key.getD start 0)
                (k.lengths_offset_per_key.getD (start + segs.sum) 0))
        ∧ (pieces.map KeyedJaggedTensor.keys).flatten
            = natSlice k.keys start (start + segs.sum)
        ∧ (∀ w, k.weights = some w →
            (pieces.map (fun p => p.weights.getD [])).flatten
              = pySlice w ((_cumsum k.computeLengthPerKey).getD start 0)
                  ((_cumsum k.computeLengthPerKey).getD (start + segs.sum) 0))
        ∧ ∀ p ∈ pieces,
            p.variable_stride_per_key = k.variable_stride_per_key
            ∧ (k.variable_stride_per_key = false → p.stride = k.stride)
            ∧ p.weights.isSome = k.weights.isSome := by
  intro segs
  induction segs with
  | nil =>
    intro start hb
    simp only [List.sum_nil, Nat.add_zero] at hb ⊢
    refine ⟨[], rfl, rfl, ?_, ⟨[], rfl, ?_⟩, ?_, ?_, ?_⟩
    · rw [pySlice_empty _ _ (valid_opk_nonneg h hb) (valid_opk_le h hb)]
      rfl
    · rw [pySlice_empty _ _ (valid_lopk_nonneg h hb) (valid_lopk_le h hb)]
      rfl
    · rw [natSlice_self_empty]
      rfl
    · intro w hw
      rw [pySlice_empty w _ (valid_opk_nonneg h hb)
        (by rw [h.weights_len w hw]; exact valid_opk_le h hb)]
      rfl
    · intro p hp
      simp at hp
  | cons seg rest ih =>
    intro start hb
    simp only [List.sum_cons] at hb ⊢
    have hend_le : start + seg ≤ k.keys.length := by omega
    have hrest_le : (start + seg) + rest.sum ≤ k.keys.length := by omega
    have h_end : listIdx (_cumsum k.computeLengthPerKey) (start + seg)
        = .ok ((_cumsum k.computeLengthPerKey).getD (start + seg) 0) :=
      listIdx_ok 0 (by rw [valid_opk_length h]; omega)
    obtain ⟨rp, hrp, hrplen, hrpv, ⟨rls, hrls, hrlsf⟩, hrpk, hrpw, hrpinv⟩ :=
      ih (start + seg) hrest_le
    -- bounds used by all the window-gluing steps
    have hvb0 : 0 ≤ (_cumsum k.computeLengthPerKey).getD start 0 :=
      valid_opk_nonneg h (by omega)
    have hvb1 : (_cumsum k.computeLengthPerKey).getD start 0
        ≤ (_cumsum k.computeLengthPerKey).getD (start + seg) 0 :=
      valid_opk_mono h (by omega) hend_le
    have hvb2 : (_cumsum k.computeLengthPerKey).getD (start + seg) 0
        ≤ (_cumsum k.computeLengthPerKey).getD (start + (seg + rest.sum)) 0 :=
      valid_opk_mono h (by omega) (by omega)
    have hvb3 : (_cumsum k.computeLengthPerKey).getD (start + (seg + rest.sum)) 0
        ≤ (k.values.length : Int) := valid_opk_le h (by omega)
    have hlb0 : 0 ≤ k.lengths_offset_per_key.getD start 0 :=
      valid_lopk_nonneg h (by omega)
    have hlb1 : k.lengths_offset_per_key.getD start 0
        ≤ k.lengths_offset_per_key.getD (start + seg) 0 :=
      valid_lopk_mono h (by omega) hend_le
    have hlb2 : k.lengths_offset_per_key.getD (start + seg) 0
        ≤ k.lengths_offset_per_key.getD (start + (seg + rest.sum)) 0 :=
      valid_lopk_mono h (by omega) (by omega)
    have hlb3 : k.lengths_offset_per_key.getD (start + (seg + rest.sum)) 0
        ≤ (L.length : Int) := valid_lopk_le h (by omega)
    have hsum_assoc : start + (seg + rest.sum) = (start + seg) + rest.sum := by
      omega
    -- a generic step: given the head piece and its window facts, conclude
    have step :
        ∀ piece : KeyedJaggedTensor,
        KeyedJaggedTensor.splitGo k k.computeLengthPerKey
            (_cumsum k.computeLengthPerKey) (seg :: rest) start
            ((_cumsum k.computeLengthPerKey).getD start 0)
          = .ok (piece :: rp) →
        piece.values = pySlice k.values
            ((_cumsum k.computeLengthPerKey).getD start 0)
            ((_cumsum k.computeLengthPerKey).getD (start + seg) 0) →
        piece.lengthsM = .ok (pySlice L (k.lengths_offset_per_key.getD start 0)
            (k.lengths_offset_per_key.getD (start + seg) 0)) →
        piece.keys = natSlice k.keys start (start + seg) →
        (∀ w, k.weights = some w → piece.weights.getD []
            = pySlice w ((_cumsum k.computeLengthPerKey).getD start 0)
                ((_cumsum k.computeLengthPerKey).getD (start + seg) 0)) →
        piece.variable_stride_per_key = k.variable_stride_per_key →
        (k.variable_stride_per_key = false → piece.stride = k.stride) →
        piece.weights.isSome = k.weights.isSome →
        (∃ pieces,
          KeyedJaggedTensor.splitGo k k.computeLengthPerKey
              (_cumsum k.computeLengthPerKey) (seg :: rest) start
              ((_cumsum k.computeLengthPerKey).getD start 0)
            = .ok pieces
          ∧ pieces.length = (seg :: rest).length
          ∧ (pieces.map KeyedJaggedTensor.values).flatten
              = pySlice k.values ((_cumsum k.computeLengthPerKey).getD start 0)
                  ((_cumsum k.computeLengthPerKey).getD
                    (start + (seg + rest.sum)) 0)
          ∧ (∃ ls, pieces.mapM KeyedJaggedTensor.lengthsM = .ok ls
              ∧ ls.flatten = pySlice L (k.lengths_offset_per_key.getD start 0)
                  (k.lengths_offset_per_key.getD (start + (seg + rest.sum)) 0))
          ∧ (pieces.map KeyedJaggedTensor.keys).flatten
              = natSlice k.keys start (start + (seg + rest.sum))
          ∧ (∀ w, k.weights = some w →
              (pieces.map (fun p => p.weights.getD [])).flatten
                = pySlice w ((_cumsum k.computeLengthPerKey).getD start 0)
                    ((_cumsum k.computeLengthPerKey).getD
                      (start + (seg + rest.sum)) 0))
          ∧ ∀ p ∈ pieces,
              p.variable_stride_per_key = k.variable_stride_per_key
              ∧ (k.variable_stride_per_key = false → p.stride = k.stride)
              ∧ p.weights.isSome = k.weights.isSome) := by
      intro piece heval hv hl hk hw hvar hstr hws
      refine ⟨piece :: rp, heval, by simp [hrplen], ?_, ?_, ?_, ?_, ?_⟩
      · rw [List.map_cons, List.flatten_cons, hv, hrpv, hsum_assoc]
        exact pySlice_append hvb0 hvb1 (hsum_assoc ▸ hvb2) (hsum_assoc ▸ hvb3)
      · refine ⟨pySlice L (k.lengths_offset_per_key.getD start 0)
            (k.lengths_offset_per_key.getD (start + seg) 0) :: rls,
          exceptMapM_cons _ _ _ hl hrls, ?_⟩
        rw [List.flatten_cons, hrlsf, hsum_assoc]
        exact pySlice_append hlb0 hlb1 (hsum_assoc ▸ hlb2) (hsum_assoc ▸ hlb3)
      · rw [List.map_cons, List.flatten_cons, hk, hrpk, hsum_assoc]
        exact natSlice_append k.keys (by omega) (by omega) (by omega)
      · intro w hww
        rw [List.map_cons, List.flatten_cons, hw w hww, hrpw w hww, hsum_assoc]
        have hwl : w.length = k.values.length := h.weights_len w hww
        apply pySlice_append hvb0 hvb1 (hsum_assoc ▸ hvb2)
        rw [hwl]
        exact hsum_assoc ▸ hvb3
      · intro p hp
        rcases List.mem_cons.mp hp with hp | hp
        · subst hp
          exact ⟨hvar, hstr, hws⟩
        · exact hrpinv p hp
    have h_lm := lengthsM_valid h
    have hlidx1 : listIdx k.lengths_offset_per_key start
        = .ok (k.lengths_offset_per_key.getD start 0) :=
      listIdx_ok 0 (by rw [valid_lopk_length h]; omega)
    have hlidx2 : listIdx k.lengths_offset_per_key (start + seg)
        = .ok (k.lengths_offset_per_key.getD (start + seg) 0) :=
      listIdx_ok 0 (by rw [valid_lopk_length h]; omega)
    by_cases hfull : seg = k.keys.length
    · have hstart0 : start = 0 := by omega
      subst hstart0
      have hv : k.values = pySlice k.values
          ((_cumsum k.computeLengthPerKey).getD 0 0)
          ((_cumsum k.computeLengthPerKey).getD (0 + seg) 0) := by
        rw [Nat.zero_add, hfull, valid_opk_zero h, valid_opk_last h,
          pySlice_zero_length]
      have hl : k.lengthsM = .ok (pySlice L
          (k.lengths_offset_per_key.getD 0 0)
          (k.lengths_offset_per_key.getD (0 + seg) 0)) := by
        rw [Nat.zero_add, hfull, valid_lopk_zero h, valid_lopk_last h,
          pySlice_zero_length, h_lm]
      have hk : k.keys = natSlice k.keys 0 (0 + seg) := by
        rw [Nat.zero_add, hfull, natSlice_zero_length]
      have hw : ∀ w, k.weights = some w → k.weights.getD []
          = pySlice w ((_cumsum k.computeLengthPerKey).getD 0 0)
              ((_cumsum k.computeLengthPerKey).getD (0 + seg) 0) := by
        intro w hww
        rw [Nat.zero_add, hfull, valid_opk_zero h, valid_opk_last h,
          ← h.weights_len w hww, pySlice_zero_length, hww]
        rfl
      rcases Or.symm (Bool.eq_false_or_eq_true k.variable_stride_per_key) with hkv | hkv
      · refine step (KeyedJaggedTensor.mk k.keys k.values k.weights k.lengths
            k.offsets k.stride (List.replicate k.keys.length [k.stride]) false
            (some k.computeLengthPerKey)
            (some (_cumsum k.computeLengthPerKey)))
          ?_ hv hl hk hw hkv.symm (fun _ => rfl) rfl
        simp only [KeyedJaggedTensor.splitGo, h_end, hkv, Bool.false_eq_true,
          if_false, if_pos hfull, init_uniform_eval, hrp, bind, Except.bind]
      · refine step (KeyedJaggedTensor.mk k.keys k.values k.weights k.lengths
            k.offsets
            (if (natSlice k.stride_per_key_per_rank 0 (0 + seg)).isEmpty
              then 0
              else if ((natSlice k.stride_per_key_per_rank 0 (0 + seg)).map
                  List.sum).all (fun s => s =
                    ((natSlice k.stride_per_key_per_rank 0 (0 + seg)).map
                      List.sum).headD 0) then
                ((natSlice k.stride_per_key_per_rank 0 (0 + seg)).map
                  List.sum).headD 0
              else -1)
            (natSlice k.stride_per_key_per_rank 0 (0 + seg)) true
            (some k.computeLengthPerKey)
            (some (_cumsum k.computeLengthPerKey)))
          ?_ hv hl hk hw hkv.symm
          (fun hfalse => by rw [hkv] at hfalse; cases hfalse) rfl
        simp only [KeyedJaggedTensor.splitGo, h_end, hkv, if_true,
          if_pos hfull, init_variable_eval, hrp, bind, Except.bind]
    · by_cases hzero : seg = 0
      · subst hzero
        have hv : ([] : List Int) = pySlice k.values
            ((_cumsum k.computeLengthPerKey).getD start 0)
            ((_cumsum k.computeLengthPerKey).getD (start + 0) 0) := by
          rw [Nat.add_zero,
            pySlice_empty _ _ (valid_opk_nonneg h (by omega))
              (valid_opk_le h (by omega))]
        have hlv : (KeyedJaggedTensor.mk (natSlice k.keys start (start + 0)) []
            (match k.weights with
              | some _ => some ([] : List Int)
              | none => none)
            (some []) (some []) k.stride
            (List.replicate (natSlice k.keys start (start + 0)).length [k.stride])
            false none none).lengthsM
            = .ok (pySlice L (k.lengths_offset_per_key.getD start 0)
                (k.lengths_offset_per_key.getD (start + 0) 0)) := by
          rw [Nat.add_zero,
            pySlice_empty _ _ (valid_lopk_nonneg h (by omega))
              (valid_lopk_le h (by omega))]
          rfl
        have hlv2 : (KeyedJaggedTensor.mk (natSlice k.keys start (start + 0)) []
            (match k.weights with
              | some _ => some ([] : List Int)
              | none => none)
            (some []) (some [])
            (if (natSlice k.stride_per_key_per_rank start (start + 0)).isEmpty
              then 0
              else if ((natSlice k.stride_per_key_per_rank start
                  (start + 0)).map List.sum).all (fun s => s =
                    ((natSlice k.stride_per_key_per_rank start (start + 0)).map
                      List.sum).headD 0) then
                ((natSlice k.stride_per_key_per_rank start (start + 0)).map
                  List.sum).headD 0
              else -1)
            (natSlice k.stride_per_key_per_rank start (start + 0))
            true none none).lengthsM
            = .ok (pySlice L (k.lengths_offset_per_key.getD start 0)
                (k.lengths_offset_per_key.getD (start + 0) 0)) := by
          rw [Nat.add_zero,
            pySlice_empty _ _ (valid_lopk_nonneg h (by omega))
              (valid_lopk_le h (by omega))]
          rfl
        have hw : ∀ w, k.weights = some w →
            (match k.weights with
              | some _ => some ([] : List Int)
              | none => none).getD []
            = pySlice w ((_cumsum k.computeLengthPerKey).getD start 0)
                ((_cumsum k.computeLengthPerKey).getD (start + 0) 0) := by
          intro w hww
          rw [hww, Nat.add_zero,
            pySlice_empty w _ (valid_opk_nonneg h (by omega))
              (by rw [h.weights_len w hww]; exact valid_opk_le h (by omega))]
          rfl
        have hws : (match k.weights with
            | some _ => some ([] : List Int)
            | none => none).isSome = k.weights.isSome := by
          cases k.weights <;> rfl
        rcases Or.symm (Bool.eq_false_or_eq_true k.variable_stride_per_key) with hkv | hkv
        · refine step (KeyedJaggedTensor.mk (natSlice k.keys start (start + 0))
            []
            (match k.weights with
              | some _ => some ([] : List Int)
              | none => none)
            (some []) (some []) k.stride
            (List.replicate (natSlice k.keys start (start + 0)).length
              [k.stride])
            false none none)
            ?_ hv hlv rfl hw hkv.symm (fun _ => rfl) hws
          simp only [KeyedJaggedTensor.splitGo, h_end, hkv, Bool.false_eq_true,
            if_false, if_neg hfull, if_pos rfl, ite_true, init_uniform_eval, hrp, bind,
            Except.bind]
        · refine step (KeyedJaggedTensor.mk (natSlice k.keys start (start + 0))
            []
            (match k.weights with
              | some _ => some ([] : List Int)
              | none => none)
            (some []) (some [])
            (if (natSlice k.stride_per_key_per_rank start (start + 0)).isEmpty
              then 0
              else if ((natSlice k.stride_per_key_per_rank start
                  (start + 0)).map List.sum).all (fun s => s =
                    ((natSlice k.stride_per_key_per_rank start (start + 0)).map
                      List.sum).headD 0) then
                ((natSlice k.stride_per_key_per_rank start (start + 0)).map
                  List.sum).headD 0
              else -1)
            (natSlice k.stride_per_key_per_rank start (start + 0))
            true none none)
            ?_ hv hlv2 rfl hw hkv.symm
            (fun hfalse => by rw [hkv] at hfalse; cases hfalse) hws
          simp only [KeyedJaggedTensor.splitGo, h_end, hkv, if_true,
            if_neg hfull, if_pos rfl, ite_true, init_variable_eval, hrp, bind,
            Except.bind]
      · have hw : ∀ w, k.weights = some w →
            (k.weights.map (fun x => pySlice x
              ((_cumsum k.computeLengthPerKey).getD start 0)
              ((_cumsum k.computeLengthPerKey).getD (start + seg) 0))).getD []
            = pySlice w ((_cumsum k.computeLengthPerKey).getD start 0)
                ((_cumsum k.computeLengthPerKey).getD (start + seg) 0) := by
          intro w hww
          rw [hww]
          rfl
        have hws : (k.weights.map (fun x => pySlice x
            ((_cumsum k.computeLengthPerKey).getD start 0)
            ((_cumsum k.computeLengthPerKey).getD (start + seg) 0))).isSome
            = k.weights.isSome := by
          cases k.weights <;> rfl
        rcases Or.symm (Bool.eq_false_or_eq_true k.variable_stride_per_key) with hkv | hkv
        · refine step (KeyedJaggedTensor.mk
            (natSlice k.keys start (start + seg))
            (pySlice k.values ((_cumsum k.computeLengthPerKey).getD start 0)
              ((_cumsum k.computeLengthPerKey).getD (start + seg) 0))
            (k.weights.map (fun x => pySlice x
              ((_cumsum k.computeLengthPerKey).getD start 0)
              ((_cumsum k.computeLengthPerKey).getD (start + seg) 0)))
            (some (pySlice L (k.lengths_offset_per_key.getD start 0)
              (k.lengths_offset_per_key.getD (start + seg) 0)))
            none k.stride
            (List.replicate (natSlice k.keys start (start + seg)).length
              [k.stride])
            false
            (some (natSlice k.computeLengthPerKey start (start + seg)))
            none)
            ?_ rfl rfl rfl hw hkv.symm (fun _ => rfl) hws
          simp only [KeyedJaggedTensor.splitGo, h_end, hkv, Bool.false_eq_true,
            if_false, if_neg hfull, if_neg hzero, h_lm, hlidx1, hlidx2,
            init_uniform_eval, hrp, bind, Except.bind]
        · refine step (KeyedJaggedTensor.mk
            (natSlice k.keys start (start + seg))
            (pySlice k.values ((_cumsum k.computeLengthPerKey).getD start 0)
              ((_cumsum k.computeLengthPerKey).getD (start + seg) 0))
            (k.weights.map (fun x => pySlice x
              ((_cumsum k.computeLengthPerKey).getD start 0)
              ((_cumsum k.computeLengthPerKey).getD (start + seg) 0)))
            (some (pySlice L (k.lengths_offset_per_key.getD start 0)
              (k.lengths_offset_per_key.getD (start + seg) 0)))
            none
            (if (natSlice k.stride_per_key_per_rank start
                (start + seg)).isEmpty then 0
              else if ((natSlice k.stride_per_key_per_rank start
                  (start + seg)).map List.sum).all (fun s => s =
                    ((natSlice k.stride_per_key_per_rank start
                      (start + seg)).map List.sum).headD 0) then
                ((natSlice k.stride_per_key_per_rank start (start + seg)).map
                  List.sum).headD 0
              else -1)
            (natSlice k.stride_per_key_per_rank start (start + seg))
            true
            (some (natSlice k.computeLengthPerKey start (start + seg)))
            none)
            ?_ rfl rfl rfl hw hkv.symm
            (fun hfalse => by rw [hkv] at hfalse; cases hfalse) hws
          simp only [KeyedJaggedTensor.splitGo, h_end, hkv, if_true,
            if_neg hfull, if_neg hzero, h_lm, hlidx1, hlidx2,
            init_variable_eval, hrp, bind, Except.bind]

theorem exceptBind_ok {α β : Type} (a : α) (f : α → Except String β) :
    Except.bind (Except.ok a) f = f a := rfl

theorem exceptBind_error {α β : Type} (e : String) (f : α → Except String β) :
    Except.bind (Except.error e) f = Except.error e := rfl

theorem except_bind_error {α β : Type} (x : Except String α)
    (f : α → Except String β) (hf : ∀ a, ∃ m, f a = .error m) :
    ∃ m, Except.bind x f = .error m := by
  cases x with
  | error e => exact ⟨e, rfl⟩
  | ok a =>
    obtain ⟨m, hm⟩ := hf a
    exact ⟨m, by rw [exceptBind_ok, hm]⟩

/-- Overshooting splits fail: as soon as a cumulative segment boundary exceeds
the key count, the `_offset_per_key[end]` list indexing raises. -/
theorem splitGo_error {k : KeyedJaggedTensor} (lpk opk : List Int)
    (hopk : opk.length = k.keys.length + 1) :
    ∀ (segs : List Nat) (start : Nat) (off : Int),
      start ≤ k.keys.length → start + segs.sum > k.keys.length →
      ∃ msg, KeyedJaggedTensor.splitGo k lpk opk segs start off = .error msg := by
  intro segs
  induction segs with
  | nil =>
    intro start off hle hgt
    simp only [List.sum_nil, Nat.add_zero] at hgt
    omega
  | cons seg rest ih =>
    intro start off hle hgt
    simp only [List.sum_cons] at hgt
    by_cases hend : start + seg ≤ k.keys.length
    · have h_end : listIdx opk (start + seg) = .ok (opk.getD (start + seg) 0) :=
        listIdx_ok 0 (by omega)
      obtain ⟨msg, hmsg⟩ := ih (start + seg) (opk.getD (start + seg) 0) hend
        (by omega)
      simp only [KeyedJaggedTensor.splitGo, h_end, bind, exceptBind_ok]
      by_cases hfull : seg = k.keys.length
      · rw [if_pos hfull]
        apply except_bind_error
        intro piece
        exact ⟨msg, by rw [hmsg, exceptBind_error]⟩
      · rw [if_neg hfull]
        by_cases hzero : seg = 0
        · rw [if_pos hzero]
          apply except_bind_error
          intro piece
          exact ⟨msg, by rw [hmsg, exceptBind_error]⟩
        · rw [if_neg hzero]
          apply except_bind_error
          intro lens
          apply except_bind_error
          intro a
          apply except_bind_error
          intro b
          apply except_bind_error
          intro piece
          exact ⟨msg, by rw [hmsg, exceptBind_error]⟩
    · have h_err : listIdx opk (start + seg)
          = .error "IndexError: list index out of range" :=
        listIdx_error (by omega)
      refine ⟨"IndexError: list index out of range", ?_⟩
      simp only [KeyedJaggedTensor.splitGo, h_err, bind, exceptBind_error]

/-- C4 counterexample: on a two-key batch, `split([1])` — whose segment sizes
sum to 1 ≠ 2 — returns a result (a single-key prefix batch) instead of
failing, contradicting the claim that any mismatched partition errors. -/
theorem C4_counterexample :
    ([1] : List Nat).sum ≠ (["x", "y"] : List String).length
    ∧ (KeyedJaggedTensor.mk ["x", "y"] [5, 6] none (some [1, 1]) none 1
        [[1], [1]] false none none).split [1]
      = .ok [KeyedJaggedTensor.mk ["x"] [5] none (some [1]) none 1 [[1]] false
          (some [1]) none] :=
  ⟨by decide, by rfl⟩

/-- C4 amended: for a valid KeyedJaggedTensor, `split(segments)` fails (with an
IndexError on `_offset_per_key`) whenever the segment sizes sum to *more* than
the key count, but silently returns a (prefix) result whenever they sum to
the key count or less. -/
theorem C4_amended_overshoot {k : KeyedJaggedTensor} {L : List Int}
    (h : ValidKJT k L) (segments : List Nat) :
    (segments.sum > k.keys.length → ∃ msg, k.split segments = .error msg)
    ∧ (segments.sum ≤ k.keys.length → ∃ pieces, k.split segments = .ok pieces) := by
  have hsplit : k.split segments
      = KeyedJaggedTensor.splitGo k k.computeLengthPerKey
          (_cumsum k.computeLengthPerKey) segments 0 0 := by
    rw [KeyedJaggedTensor.split, maybe_pair_valid h]
  constructor
  · intro hgt
    obtain ⟨msg, hm⟩ := splitGo_error _ _ (valid_opk_length h) segments 0 0
      (by omega) (by omega)
    exact ⟨msg, by rw [hsplit, hm]⟩
  · intro hle
    obtain ⟨pieces, hp, _⟩ := splitGo_spec h segments 0 (by omega)
    refine ⟨pieces, ?_⟩
    rw [hsplit,
      show (0 : Int) = (_cumsum k.computeLengthPerKey).getD 0 0 from
        (valid_opk_zero h).symm]
    exact hp

/-- C4 witness: on the concrete two-key batch, `split([3])` (sum 3 > 2)
errors and `split([1])` (sum 1 ≤ 2) returns a result. -/
theorem C4_witness :
    ((([3] : List Nat).sum > (KeyedJaggedTensor.mk ["x", "y"] [5, 6] none
          (some [1, 1]) none 1 [[1], [1]] false none none).keys.length →
        ∃ msg, (KeyedJaggedTensor.mk ["x", "y"] [5, 6] none (some [1, 1]) none 1
          [[1], [1]] false none none).split [3] = .error msg)
      ∧ (([3] : List Nat).sum ≤ (KeyedJaggedTensor.mk ["x", "y"] [5, 6] none
          (some [1, 1]) none 1 [[1], [1]] false none none).keys.length →
        ∃ pieces, (KeyedJaggedTensor.mk ["x", "y"] [5, 6] none (some [1, 1])
          none 1 [[1], [1]] false none none).split [3] = .ok pieces))
    ∧ ([3] : List Nat).sum > 2 :=
  ⟨C4_amended_overshoot
    (k := KeyedJaggedTensor.mk ["x", "y"] [5, 6] none (some [1, 1]) none 1
      [[1], [1]] false none none)
    (L := [1, 1])
    { src := Or.inl ⟨rfl, rfl⟩
      len_nonneg := by decide
      len_total := by decide
      weights_len := by intro w hw; simp at hw
      sppr_len := rfl
      spk_nonneg := by decide
      spk_total := by decide
      uniform_sppr := fun _ => ⟨rfl, by decide⟩
      uniform_offsets_pos := by intro _ hl; simp at hl
      lpk_none := rfl
      opk_none := rfl
      keys_pos := by decide }
    [3], by decide⟩

theorem concatGo_spec (iw var : Bool) :
    ∀ (ps : List KeyedJaggedTensor) (acc : ConcatAcc) (ls : List (List Int)),
      (∀ p ∈ ps, p.weights.isSome = iw) →
      ps.mapM KeyedJaggedTensor.lengthsM = .ok ls →
      (var = false → ∃ s0, (∀ p ∈ ps, p.stride = s0)
        ∧ (acc.stride = none ∨ acc.stride = some s0)) →
      ∃ acc2, concatGo iw var ps acc = .ok acc2
        ∧ acc2.keys = acc.keys ++ (ps.map KeyedJaggedTensor.keys).flatten
        ∧ acc2.values = acc.values ++ (ps.map KeyedJaggedTensor.values).flatten
        ∧ acc2.lengths = acc.lengths ++ ls.flatten
        ∧ acc2.weights = acc.weights
            ++ (if iw then (ps.map (fun p => p.weights.getD [])).flatten
                else []) := by
  intro ps
  induction ps with
  | nil =>
    intro acc ls _ hls _
    simp only [List.mapM_nil] at hls
    have hnil : ls = [] := by
      cases hls
      rfl
    subst hnil
    exact ⟨acc, rfl, by simp, by simp, by simp, by cases iw <;> simp⟩
  | cons p rest ih =>
    intro acc ls hw hls hstr
    obtain ⟨l0, hl0, ls', hls', hlseq⟩ :
        ∃ l0, p.lengthsM = .ok l0 ∧ ∃ ls', rest.mapM KeyedJaggedTensor.lengthsM
          = .ok ls' ∧ ls = l0 :: ls' := by
      rw [List.mapM_cons] at hls
      cases hp : p.lengthsM with
      | error e =>
        rw [hp] at hls
        cases hls
      | ok l0 =>
        rw [hp] at hls
        cases hr : rest.mapM KeyedJaggedTensor.lengthsM with
        | error e =>
          rw [hr] at hls
          cases hr2 : hls
        | ok ls' =>
          rw [hr] at hls
          cases hls
          exact ⟨l0, rfl, ls', rfl, rfl⟩
    subst hlseq
    have hwp : p.weights.isSome = iw := hw p (by simp)
    have hwrest : ∀ q ∈ rest, q.weights.isSome = iw :=
      fun q hq => hw q (by simp [hq])
    rw [concatGo, if_neg (by simp [hwp])]
    simp only [hl0, bind, exceptBind_ok]
    rcases Or.symm (Bool.eq_false_or_eq_true iw) with hiw | hiw
    · subst hiw
      simp only [Bool.false_eq_true, if_false]
      rcases Or.symm (Bool.eq_false_or_eq_true var) with hvar | hvar
      · subst hvar
        obtain ⟨s0, hs0, hacc⟩ := hstr rfl
        have hps : p.stride = s0 := hs0 p (by simp)
        have hrest : ∀ q ∈ rest, q.stride = s0 :=
          fun q hq => hs0 q (by simp [hq])
        simp only [Bool.false_eq_true, if_false]
        rcases hacc with hacc | hacc
        · rw [hacc]
          obtain ⟨acc2, h1, h2, h3, h4, h5⟩ := ih
            (ConcatAcc.mk (acc.keys ++ p.keys) (acc.values ++ p.values)
              (acc.weights) (acc.lengths ++ l0) (acc.sppr) (some p.stride)
              (if p.length_per_key.isNone then false else acc.has_lpk)
              (match p.length_per_key with
                | some l => if (if p.length_per_key.isNone then false
                    else acc.has_lpk) then acc.lpk ++ l else acc.lpk
                | none => acc.lpk)) ls' hwrest hls'
            (fun _ => ⟨s0, hrest, Or.inr (by simp [hps])⟩)
          exact ⟨acc2, h1, by simpa [List.append_assoc] using h2,
            by simpa [List.append_assoc] using h3,
            by simpa [List.append_assoc] using h4, by simpa using h5⟩
        · rw [hacc]
          simp only [hps, eq_self_iff_true, if_true]
          obtain ⟨acc2, h1, h2, h3, h4, h5⟩ := ih
            (ConcatAcc.mk (acc.keys ++ p.keys) (acc.values ++ p.values)
              (acc.weights) (acc.lengths ++ l0) (acc.sppr) (some s0)
              (if p.length_per_key.isNone then false else acc.has_lpk)
              (match p.length_per_key with
                | some l => if (if p.length_per_key.isNone then false
                    else acc.has_lpk) then acc.lpk ++ l else acc.lpk
                | none => acc.lpk)) ls' hwrest hls'
            (fun _ => ⟨s0, hrest, Or.inr rfl⟩)
          exact ⟨acc2, h1, by simpa [List.append_assoc] using h2,
            by simpa [List.append_assoc] using h3,
            by simpa [List.append_assoc] using h4, by simpa using h5⟩
      · subst hvar
        simp only [if_true]
        obtain ⟨acc2, h1, h2, h3, h4, h5⟩ := ih
          (ConcatAcc.mk (acc.keys ++ p.keys) (acc.values ++ p.values)
              (acc.weights) (acc.lengths ++ l0) (acc.sppr ++ p.stride_per_key_per_rank) (acc.stride)
              (if p.length_per_key.isNone then false else acc.has_lpk)
              (match p.length_per_key with
                | some l => if (if p.length_per_key.isNone then false
                    else acc.has_lpk) then acc.lpk ++ l else acc.lpk
                | none => acc.lpk)) ls' hwrest hls'
          (fun hfalse => by cases hfalse)
        exact ⟨acc2, h1, by simpa [List.append_assoc] using h2,
          by simpa [List.append_assoc] using h3,
          by simpa [List.append_assoc] using h4, by simpa using h5⟩
    · subst hiw
      simp only [if_true]
      cases hpw : p.weights with
      | none =>
        rw [hpw] at hwp
        cases hwp
      | some w =>
        rcases Or.symm (Bool.eq_false_or_eq_true var) with hvar | hvar
        · subst hvar
          obtain ⟨s0, hs0, hacc⟩ := hstr rfl
          have hps : p.stride = s0 := hs0 p (by simp)
          have hrest : ∀ q ∈ rest, q.stride = s0 :=
            fun q hq => hs0 q (by simp [hq])
          simp only [Bool.false_eq_true, if_false]
          rcases hacc with hacc | hacc
          · rw [hacc]
            obtain ⟨acc2, h1, h2, h3, h4, h5⟩ := ih
              (ConcatAcc.mk (acc.keys ++ p.keys) (acc.values ++ p.values)
              (acc.weights ++ w) (acc.lengths ++ l0) (acc.sppr) (some p.stride)
              (if p.length_per_key.isNone then false else acc.has_lpk)
              (match p.length_per_key with
                | some l => if (if p.length_per_key.isNone then false
                    else acc.has_lpk) then acc.lpk ++ l else acc.lpk
                | none => acc.lpk)) ls' hwrest hls'
              (fun _ => ⟨s0, hrest, Or.inr (by simp [hps])⟩)
            exact ⟨acc2, h1, by simpa [List.append_assoc] using h2,
              by simpa [List.append_assoc] using h3,
              by simpa [List.append_assoc] using h4,
              by simpa [hpw, List.append_assoc] using h5⟩
          · rw [hacc]
            simp only [hps, eq_self_iff_true, if_true]
            obtain ⟨acc2, h1, h2, h3, h4, h5⟩ := ih
              (ConcatAcc.mk (acc.keys ++ p.keys) (acc.values ++ p.values)
              (acc.weights ++ w) (acc.lengths ++ l0) (acc.sppr) (some s0)
              (if p.length_per_key.isNone then false else acc.has_lpk)
              (match p.length_per_key with
                | some l => if (if p.length_per_key.isNone then false
                    else acc.has_lpk) then acc.lpk ++ l else acc.lpk
                | none => acc.lpk)) ls' hwrest hls'
              (fun _ => ⟨s0, hrest, Or.inr rfl⟩)
            exact ⟨acc2, h1, by simpa [List.append_assoc] using h2,
              by simpa [List.append_assoc] using h3,
              by simpa [List.append_assoc] using h4,
              by simpa [hpw, List.append_assoc] using h5⟩
        · subst hvar
          simp only [if_true]
          obtain ⟨acc2, h1, h2, h3, h4, h5⟩ := ih
            (ConcatAcc.mk (acc.keys ++ p.keys) (acc.values ++ p.values)
              (acc.weights ++ w) (acc.lengths ++ l0) (acc.sppr ++ p.stride_per_key_per_rank) (acc.stride)
              (if p.length_per_key.isNone then false else acc.has_lpk)
              (match p.length_per_key with
                | some l => if (if p.length_per_key.isNone then false
                    else acc.has_lpk) then acc.lpk ++ l else acc.lpk
                | none => acc.lpk)) ls' hwrest hls'
            (fun hfalse => by cases hfalse)
          exact ⟨acc2, h1, by simpa [List.append_assoc] using h2,
            by simpa [List.append_assoc] using h3,
            by simpa [List.append_assoc] using h4,
            by simpa [hpw, List.append_assoc] using h5⟩

theorem init_nosppr_eval (keys : List String) (values : List Int)
    (w : Option (List Int)) (l o : Option (List Int)) (st : Option Int)
    (lpk opk : Option (List Int)) :
    KeyedJaggedTensor.init keys values w l o st none lpk opk
      = .ok { keys := keys, values := values, weights := w, lengths := l,
              offsets := o,
              stride := _maybe_compute_stride_kjt keys st l o,
              stride_per_key_per_rank := List.replicate keys.length
                [_maybe_compute_stride_kjt keys st l o],
              variable_stride_per_key := false, length_per_key := lpk,
              offset_per_key := opk } := rfl

theorem concat_spec (v iw : Bool) (p0 : KeyedJaggedTensor)
    (ptl : List KeyedJaggedTensor) (ls : List (List Int)) (s0 : Int)
    (hvl : ∀ p ∈ p0 :: ptl, p.variable_stride_per_key = v)
    (hwl : ∀ p ∈ p0 :: ptl, p.weights.isSome = iw)
    (hls : (p0 :: ptl).mapM KeyedJaggedTensor.lengthsM = .ok ls)
    (hstr : v = false → ∀ p ∈ p0 :: ptl, p.stride = s0) :
    ∃ res, KeyedJaggedTensor.concat (p0 :: ptl) = .ok res
      ∧ res.keys = ((p0 :: ptl).map KeyedJaggedTensor.keys).flatten
      ∧ res.values = ((p0 :: ptl).map KeyedJaggedTensor.values).flatten
      ∧ res.lengths = some ls.flatten
      ∧ res.weights = (if iw then
          some ((p0 :: ptl).map (fun p => p.weights.getD [])).flatten
          else none) := by
  have hiw0 : p0.weights.isSome = iw := hwl p0 (List.mem_cons_self p0 ptl)
  rcases Or.symm (Bool.eq_false_or_eq_true v) with hv | hv
  · -- uniform-stride case
    subst hv
    have hall_t : ((p0 :: ptl).map
        (fun q => q.variable_stride_per_key)).all (fun b => b = true)
          = false := by
      simp [hvl p0 (List.mem_cons_self p0 ptl)]
    have hall_f : ((p0 :: ptl).map
        (fun q => q.variable_stride_per_key)).all (fun b => b = false)
          = true := by
      rw [List.all_eq_true]
      intro b hb
      simp only [List.mem_map] at hb
      obtain ⟨q, hq, hqb⟩ := hb
      simp [← hqb, hvl q hq]
    have hcond : ¬ ¬ (((p0 :: ptl).map
          (fun q => q.variable_stride_per_key)).all (fun b => b = true) = true
        ∨ ((p0 :: ptl).map
          (fun q => q.variable_stride_per_key)).all (fun b => b = false)
            = true) :=
      not_not_intro (Or.inr hall_f)
    obtain ⟨acc2, h1, h2, h3, h4, h5⟩ := concatGo_spec iw false (p0 :: ptl)
      (ConcatAcc.mk [] [] [] [] [] none true []) ls hwl hls
      (fun _ => ⟨s0, hstr rfl, Or.inl rfl⟩)
    have hev : KeyedJaggedTensor.concat (p0 :: ptl)
        = KeyedJaggedTensor.init acc2.keys acc2.values
            (if iw then some acc2.weights else none)
            (some acc2.lengths) none acc2.stride none
            (if acc2.has_lpk then some acc2.lpk else none) none := by
      simp only [KeyedJaggedTensor.concat]
      rw [if_neg hcond]
      simp only [hiw0, hall_t]
      rw [h1]
      simp only [bind, exceptBind_ok, Bool.false_eq_true, if_false]
    rw [hev, init_nosppr_eval]
    refine ⟨_, rfl, ?_, ?_, ?_, ?_⟩
    · simpa using h2
    · simpa using h3
    · simp [h4]
    · cases iw with
      | false => rfl
      | true =>
        have h5e : acc2.weights
            = ((p0 :: ptl).map (fun p => p.weights.getD [])).flatten := by
          simpa using h5
        simp [h5e]
  · -- variable-stride case
    subst hv
    have hall_t : ((p0 :: ptl).map
        (fun q => q.variable_stride_per_key)).all (fun b => b = true)
          = true := by
      rw [List.all_eq_true]
      intro b hb
      simp only [List.mem_map] at hb
      obtain ⟨q, hq, hqb⟩ := hb
      simp [← hqb, hvl q hq]
    have hcond : ¬ ¬ (((p0 :: ptl).map
          (fun q => q.variable_stride_per_key)).all (fun b => b = true) = true
        ∨ ((p0 :: ptl).map
          (fun q => q.variable_stride_per_key)).all (fun b => b = false)
            = true) :=
      not_not_intro (Or.inl hall_t)
    obtain ⟨acc2, h1, h2, h3, h4, h5⟩ := concatGo_spec iw true (p0 :: ptl)
      (ConcatAcc.mk [] [] [] [] [] none true []) ls hwl hls
      (fun hf => nomatch hf)
    have hev : KeyedJaggedTensor.concat (p0 :: ptl)
        = KeyedJaggedTensor.init acc2.keys acc2.values
            (if iw then some acc2.weights else none)
            (some acc2.lengths) none none (some acc2.sppr)
            (if acc2.has_lpk then some acc2.lpk else none) none := by
      simp only [KeyedJaggedTensor.concat]
      rw [if_neg hcond]
      simp only [hiw0, hall_t]
      rw [h1]
      simp only [bind, exceptBind_ok, eq_self_iff_true, if_true]
    rw [hev, init_variable_eval]
    refine ⟨_, rfl, ?_, ?_, ?_, ?_⟩
    · simpa using h2
    · simpa using h3
    · simp [h4]
    · cases iw with
      | false => rfl
      | true =>
        have h5e : acc2.weights
            = ((p0 :: ptl).map (fun p => p.weights.getD [])).flatten := by
          simpa using h5
        simp [h5e]

/-- C3: for every valid KeyedJaggedTensor and every partition of its key count
into positive segment sizes, `split(segments)` followed by `concat` on the
resulting pieces succeeds and reproduces the original batch's keys, values,
weights and logical per-row lengths, element-wise and order-preserving. -/
theorem C3_split_concat {k : KeyedJaggedTensor} {L : List Int}
    (h : ValidKJT k L) (segs : List Nat) (hpos : ∀ s ∈ segs, 0 < s)
    (hsum : segs.sum = k.keys.length) :
    ∃ pieces res,
      k.split segs = .ok pieces
      ∧ KeyedJaggedTensor.concat pieces = .ok res
      ∧ res.keys = k.keys
      ∧ res.values = k.values
      ∧ res.weights = k.weights
      ∧ k.lengthsM = .ok L
      ∧ res.lengths = some L := by
  obtain ⟨pieces, hev, hlen, hval, ⟨ls, hls, hlsf⟩, hkeys, hw, hinv⟩ :=
    splitGo_spec h segs 0 (by omega)
  have hsplit : k.split segs = .ok pieces := by
    rw [KeyedJaggedTensor.split, maybe_pair_valid h,
      show (0 : Int) = (_cumsum k.computeLengthPerKey).getD 0 0 from
        (valid_opk_zero h).symm]
    exact hev
  have hzero : (0 : Nat) + segs.sum = k.keys.length := by omega
  have hval' : (pieces.map KeyedJaggedTensor.values).flatten = k.values := by
    rw [hval, valid_opk_zero h, hzero, valid_opk_last h, pySlice_zero_length]
  have hlsf' : ls.flatten = L := by
    rw [hlsf, valid_lopk_zero h, hzero, valid_lopk_last h, pySlice_zero_length]
  have hkeys' : (pieces.map KeyedJaggedTensor.keys).flatten = k.keys := by
    rw [hkeys, hzero, natSlice_zero_length]
  have hw' : ∀ w, k.weights = some w →
      (pieces.map (fun p => p.weights.getD [])).flatten = w := by
    intro w hkw
    rw [hw w hkw, valid_opk_zero h, hzero, valid_opk_last h,
      show ((k.values.length : Int)) = (w.length : Int) by
        rw [h.weights_len w hkw],
      pySlice_zero_length]
  obtain ⟨p0, ptl, hps⟩ : ∃ p0 ptl, pieces = p0 :: ptl := by
    cases hpc : pieces with
    | nil =>
      rw [hpc] at hlen
      cases segs with
      | nil =>
        rw [List.sum_nil] at hsum
        have := h.keys_pos
        omega
      | cons a l => simp at hlen
    | cons a l => exact ⟨a, l, rfl⟩
  subst hps
  have hvl : ∀ p ∈ p0 :: ptl,
      p.variable_stride_per_key = k.variable_stride_per_key :=
    fun p hp => (hinv p hp).1
  have hwlpc : ∀ p ∈ p0 :: ptl, p.weights.isSome = k.weights.isSome :=
    fun p hp => (hinv p hp).2.2
  have hstrp : k.variable_stride_per_key = false →
      ∀ p ∈ p0 :: ptl, p.stride = k.stride :=
    fun hf p hp => (hinv p hp).2.1 hf
  obtain ⟨res, hcc, hrk, hrv, hrl, hrw⟩ := concat_spec
    k.variable_stride_per_key k.weights.isSome p0 ptl ls k.stride
    hvl hwlpc hls hstrp
  refine ⟨p0 :: ptl, res, hsplit, hcc, ?_, ?_, ?_, lengthsM_valid h, ?_⟩
  · rw [hrk, hkeys']
  · rw [hrv, hval']
  · cases hkw : k.weights with
    | none =>
      rw [hrw, hkw]
      simp
    | some w =>
      rw [hrw, hkw]
      simp only [Option.isSome_some, eq_self_iff_true, if_true]
      rw [hw' w hkw]
  · rw [hrl, hlsf']

/-- C3 witness: the concrete valid two-key weighted batch with lengths
`[1, 0, 2, 0]` and the partition `[1, 1]` of its key count round-trips
through `split` then `concat`. -/
theorem C3_witness :
    (∀ s ∈ ([1, 1] : List Nat), 0 < s)
    ∧ ([1, 1] : List Nat).sum
        = (KeyedJaggedTensor.mk ["u", "v"] [7, 8, 9] (some [70, 80, 90])
            (some [1, 0, 2, 0]) none 2 [[2], [2]] false none
            none).keys.length
    ∧ (∃ pieces res,
        (KeyedJaggedTensor.mk ["u", "v"] [7, 8, 9] (some [70, 80, 90])
            (some [1, 0, 2, 0]) none 2 [[2], [2]] false none
            none).split [1, 1] = .ok pieces
        ∧ KeyedJaggedTensor.concat pieces = .ok res
        ∧ res.keys = (KeyedJaggedTensor.mk ["u", "v"] [7, 8, 9]
            (some [70, 80, 90]) (some [1, 0, 2, 0]) none 2 [[2], [2]] false
            none none).keys
        ∧ res.values = (KeyedJaggedTensor.mk ["u", "v"] [7, 8, 9]
            (some [70, 80, 90]) (some [1, 0, 2, 0]) none 2 [[2], [2]] false
            none none).values
        ∧ res.weights = (KeyedJaggedTensor.mk ["u", "v"] [7, 8, 9]
            (some [70, 80, 90]) (some [1, 0, 2, 0]) none 2 [[2], [2]] false
            none none).weights
        ∧ (KeyedJaggedTensor.mk ["u", "v"] [7, 8, 9] (some [70, 80, 90])
            (some [1, 0, 2, 0]) none 2 [[2], [2]] false none
            none).lengthsM = .ok [1, 0, 2, 0]
        ∧ res.lengths = some [1, 0, 2, 0]) :=
  ⟨by decide, by decide,
    C3_split_concat
      (k := KeyedJaggedTensor.mk ["u", "v"] [7, 8, 9] (some [70, 80, 90])
        (some [1, 0, 2, 0]) none 2 [[2], [2]] false none none)
      (L := [1, 0, 2, 0])
      { src := Or.inl ⟨rfl, rfl⟩
        len_nonneg := by decide
        len_total := by decide
        weights_len := by
          intro w hw
          simp only [Option.some.injEq] at hw
          subst hw
          rfl
        sppr_len := rfl
        spk_nonneg := by decide
        spk_total := by decide
        uniform_sppr := fun _ => ⟨rfl, by decide⟩
        uniform_offsets_pos := by intro _ hl; simp at hl
        lpk_none := rfl
        opk_none := rfl
        keys_pos := by decide }
      [1, 1] (by decide) (by decide)⟩

theorem getD_map_of_lt {α β : Type} (f : α → β) (l : List α) {i : Nat}
    (hi : i < l.length) (d : α) (d2 : β) :
    (l.map f).getD i d2 = f (l.getD i d) := by
  rw [List.getD_eq_getElem (l.map f) d2 (by simpa using hi),
    List.getD_eq_getElem l d hi, List.getElem_map]

theorem gather_inv {α : Type} (d : α) (l : List α) (p pinv : List Nat)
    (hpl : p.length = l.length) (hpinvl : pinv.length = l.length)
    (hpinvb : ∀ i ∈ pinv, i < l.length)
    (hcomp : ∀ j, j < l.length → p.getD (pinv.getD j 0) 0 = j) :
    pinv.map (fun i => (p.map (fun i2 => l.getD i2 d)).getD i d) = l := by
  apply List.ext_getElem
  · simp [hpinvl]
  · intro i h1 h2
    have hip : i < pinv.length := by
      rw [hpinvl]
      exact h2
    have hmem : pinv.getD i 0 ∈ pinv := by
      rw [List.getD_eq_getElem pinv 0 hip]
      exact List.getElem_mem _
    have hpi : pinv.getD i 0 < l.length := hpinvb _ hmem
    have hstep : (pinv.map (fun i3 =>
        (p.map (fun i2 => l.getD i2 d)).getD i3 d)).getD i d = l.getD i d := by
      rw [getD_map_of_lt _ pinv hip 0 d,
        getD_map_of_lt _ p (by rw [hpl]; exact hpi) 0 d,
        hcomp i h2]
    rw [← List.getD_eq_getElem _ d h1, ← List.getD_eq_getElem l d h2]
    exact hstep

theorem blockPermute_eval {α : Type} (sizes : List Int) (xs : List α)
    (idxs : List Nat) (hb : ∀ i ∈ idxs, i < sizes.length) :
    blockPermute sizes xs idxs
      = .ok ((idxs.map (fun i =>
          (splitBySizes (sizes.map Int.toNat) xs).getD i [])).flatten) := by
  have hlen : (splitBySizes (sizes.map Int.toNat) xs).length = sizes.length := by
    rw [splitBySizes_length, List.length_map]
  have hg : gatherE (splitBySizes (sizes.map Int.toNat) xs) idxs
      = .ok (idxs.map (fun i =>
          (splitBySizes (sizes.map Int.toNat) xs).getD i [])) :=
    gatherE_ok ([] : List α) (fun i hi => by rw [hlen]; exact hb i hi)
  simp only [blockPermute]
  rw [hg]
  rfl

theorem blockPermute_pair {α : Type} (sizes : List Int) (xs : List α)
    (p pinv : List Nat) (sizes2 : List Int)
    (hsum : (sizes.map Int.toNat).sum = xs.length)
    (hpl : p.length = sizes.length)
    (hpinvl : pinv.length = sizes.length)
    (hpb : ∀ i ∈ p, i < sizes.length)
    (hpinvb : ∀ i ∈ pinv, i < sizes.length)
    (hcomp : ∀ j, j < sizes.length → p.getD (pinv.getD j 0) 0 = j)
    (hs2 : sizes2.map Int.toNat
      = p.map (fun i => (sizes.map Int.toNat).getD i 0)) :
    blockPermute sizes xs p
      = .ok ((p.map (fun i =>
          (splitBySizes (sizes.map Int.toNat) xs).getD i [])).flatten)
    ∧ blockPermute sizes2
        ((p.map (fun i =>
          (splitBySizes (sizes.map Int.toNat) xs).getD i [])).flatten) pinv
      = .ok xs := by
  have hble : (splitBySizes (sizes.map Int.toNat) xs).length = sizes.length := by
    rw [splitBySizes_length, List.length_map]
  refine ⟨blockPermute_eval sizes xs p hpb, ?_⟩
  have hGmaplen : (p.map (fun i =>
      (splitBySizes (sizes.map Int.toNat) xs).getD i [])).map List.length
      = sizes2.map Int.toNat := by
    rw [hs2, List.map_map]
    apply List.map_congr_left
    intro i hi
    have hib : i < (splitBySizes (sizes.map Int.toNat) xs).length := by
      rw [hble]
      exact hpb i hi
    simp only [Function.comp_apply]
    calc ((splitBySizes (sizes.map Int.toNat) xs).getD i []).length
        = ((splitBySizes (sizes.map Int.toNat) xs).map List.length).getD i 0 :=
          (getD_map_of_lt List.length _ hib ([] : List α) 0).symm
      _ = (sizes.map Int.toNat).getD i 0 := by
          rw [map_length_splitBySizes (le_of_eq hsum)]
  have hg : gatherE (p.map (fun i =>
      (splitBySizes (sizes.map Int.toNat) xs).getD i [])) pinv
      = .ok (pinv.map (fun i => (p.map (fun i2 =>
          (splitBySizes (sizes.map Int.toNat) xs).getD i2 [])).getD i [])) :=
    gatherE_ok ([] : List α)
      (fun i hi => by rw [List.length_map, hpl]; exact hpinvb i hi)
  have hinvG : pinv.map (fun i => (p.map (fun i2 =>
      (splitBySizes (sizes.map Int.toNat) xs).getD i2 [])).getD i [])
      = splitBySizes (sizes.map Int.toNat) xs :=
    gather_inv ([] : List α) (splitBySizes (sizes.map Int.toNat) xs) p pinv
      (by rw [hpl, hble]) (by rw [hpinvl, hble])
      (fun i hi => by rw [hble]; exact hpinvb i hi)
      (fun j hj => hcomp j (by rw [← hble]; exact hj))
  simp only [blockPermute]
  rw [← hGmaplen, splitBySizes_flatten, hg, hinvG]
  show Except.ok ((splitBySizes (sizes.map Int.toNat) xs).flatten) = .ok xs
  rw [flatten_splitBySizes_eq hsum]

theorem computeLengthPerKey_some (k : KeyedJaggedTensor) (l : List Int)
    (hl : k.length_per_key = some l) : k.computeLengthPerKey = l := by
  rw [KeyedJaggedTensor.computeLengthPerKey,
    _maybe_compute_length_per_key.eq_def, hl]

theorem map_getD_replicate {α : Type} (m : Nat) (a d : α) (idxs : List Nat)
    (hb : ∀ i ∈ idxs, i < m) :
    idxs.map (fun i => (List.replicate m a).getD i d)
      = List.replicate idxs.length a := by
  rw [List.eq_replicate_iff]
  refine ⟨by simp, ?_⟩
  intro b hbm
  simp only [List.mem_map] at hbm
  obtain ⟨i, hi, hbi⟩ := hbm
  rw [← hbi, List.getD_eq_getElem _ d
    (by rw [List.length_replicate]; exact hb i hi), List.getElem_replicate]

/-- C7: for every valid KeyedJaggedTensor and every permutation of its key
indices (supplied together with its inverse), `permute(p)` followed by
`permute(inverse(p))` succeeds and reproduces the original batch's keys,
values, weights, logical per-row lengths and per-key stride metadata. -/
theorem C7_permute_roundtrip {k : KeyedJaggedTensor} {L : List Int}
    (h : ValidKJT k L) (p pinv : List Nat)
    (hpl : p.length = k.keys.length)
    (hpinvl : pinv.length = k.keys.length)
    (hpb : ∀ i ∈ p, i < k.keys.length)
    (hpinvb : ∀ i ∈ pinv, i < k.keys.length)
    (hcomp : ∀ j, j < k.keys.length → p.getD (pinv.getD j 0) 0 = j) :
    ∃ k1 k2, k.permute p = .ok k1 ∧ k1.permute pinv = .ok k2
      ∧ k2.keys = k.keys ∧ k2.values = k.values ∧ k2.weights = k.weights
      ∧ k2.lengths = some L
      ∧ k2.stride_per_key_per_rank = k.stride_per_key_per_rank := by
  have hclpk_len := computeLengthPerKey_length h
  have hspk_len := valid_spk_length h
  have hclpkN : (k.computeLengthPerKey.map Int.toNat).sum
      = k.values.length := by
    have h1 := sum_map_toNat (computeLengthPerKey_nonneg h)
    rw [computeLengthPerKey_sum h] at h1
    exact_mod_cast h1
  have hspkN := spkN_sum h
  have hlensM := lengthsM_valid h
  have hgk : gatherE k.keys p = .ok (p.map (fun i => k.keys.getD i "")) :=
    gatherE_ok "" hpb
  have hgsppr : gatherE k.stride_per_key_per_rank p
      = .ok (p.map (fun i => k.stride_per_key_per_rank.getD i [])) :=
    gatherE_ok [] (fun i hi => by rw [h.sppr_len]; exact hpb i hi)
  have hglpk : gatherE k.computeLengthPerKey p
      = .ok (p.map (fun i => k.computeLengthPerKey.getD i 0)) :=
    gatherE_ok 0 (fun i hi => by rw [hclpk_len]; exact hpb i hi)
  have hgk2 : gatherE (p.map (fun i => k.keys.getD i "")) pinv
      = .ok k.keys := by
    rw [gatherE_ok ""
      (fun i hi => by rw [List.length_map, hpl]; exact hpinvb i hi)]
    rw [gather_inv "" k.keys p pinv hpl hpinvl hpinvb hcomp]
  have hgsppr2 : gatherE (p.map (fun i => k.stride_per_key_per_rank.getD i []))
      pinv = .ok k.stride_per_key_per_rank := by
    rw [gatherE_ok ([] : List Int)
      (fun i hi => by rw [List.length_map, hpl]; exact hpinvb i hi)]
    rw [gather_inv ([] : List Int) k.stride_per_key_per_rank p pinv
      (hpl.trans h.sppr_len.symm) (hpinvl.trans h.sppr_len.symm)
      (fun i hi => by rw [h.sppr_len]; exact hpinvb i hi)
      (fun j hj => hcomp j (by rw [← h.sppr_len]; exact hj))]
  have hglpk2 : gatherE (p.map (fun i => k.computeLengthPerKey.getD i 0)) pinv
      = .ok k.computeLengthPerKey := by
    rw [gatherE_ok (0 : Int)
      (fun i hi => by rw [List.length_map, hpl]; exact hpinvb i hi)]
    rw [gather_inv (0 : Int) k.computeLengthPerKey p pinv
      (hpl.trans hclpk_len.symm) (hpinvl.trans hclpk_len.symm)
      (fun i hi => by rw [hclpk_len]; exact hpinvb i hi)
      (fun j hj => hcomp j (by rw [← hclpk_len]; exact hj))]
  have hs2v : (p.map (fun i => k.computeLengthPerKey.getD i 0)).map Int.toNat
      = p.map (fun i => (k.computeLengthPerKey.map Int.toNat).getD i 0) := by
    rw [List.map_map]
    apply List.map_congr_left
    intro i hi
    simp only [Function.comp_apply]
    exact (getD_map_of_lt Int.toNat _
      (by rw [hclpk_len]; exact hpb i hi) 0 0).symm
  have hVpair := blockPermute_pair k.computeLengthPerKey k.values p pinv
    (p.map (fun i => k.computeLengthPerKey.getD i 0)) hclpkN
    (hpl.trans hclpk_len.symm) (hpinvl.trans hclpk_len.symm)
    (fun i hi => by rw [hclpk_len]; exact hpb i hi)
    (fun i hi => by rw [hclpk_len]; exact hpinvb i hi)
    (fun j hj => hcomp j (by rw [← hclpk_len]; exact hj)) hs2v
  have hcondpk : (0 < (p.map (fun i => k.keys.getD i "")).length) = True :=
    eq_true (by rw [List.length_map, hpl]; exact h.keys_pos)
  have hcondk : (0 < k.keys.length) = True := eq_true h.keys_pos
  rcases Or.symm (Bool.eq_false_or_eq_true k.variable_stride_per_key)
    with hvar | hvar
  · -- uniform-stride batch
    have huni := h.uniform_sppr hvar
    have hsppr_rep : k.stride_per_key_per_rank
        = List.replicate k.keys.length [k.stride] := huni.1
    have hspk_rep : k.stride_per_key
        = List.replicate k.keys.length k.stride := by
      rw [KeyedJaggedTensor.stride_per_key, hsppr_rep, List.map_replicate]
      simp
    have hn0 : ((k.keys.length : Nat) : Int) ≠ 0 := by
      have hkp := h.keys_pos
      exact_mod_cast Nat.pos_iff_ne_zero.mp hkp
    have hLlenI : (L.length : Int) = (k.keys.length : Int) * k.stride := by
      rw [← h.spk_total, hspk_rep, List.sum_replicate, nsmul_eq_mul]
    have hrow : (L.length : Int) / (k.keys.length : Int) = k.stride := by
      rw [hLlenI, Int.mul_ediv_cancel_left _ hn0]
    have hrepN : List.replicate k.keys.length k.stride.toNat
        = k.stride_per_key.map Int.toNat := by
      rw [hspk_rep, List.map_replicate]
    have hrepZ : List.replicate k.keys.length k.stride = k.stride_per_key :=
      hspk_rep.symm
    have hvalSizes : (splitBySizes (k.stride_per_key.map Int.toNat) L).map
        List.sum = k.computeLengthPerKey := (computeLengthPerKey_valid h).symm
    have hs2lU : k.stride_per_key.map Int.toNat
        = p.map (fun i => (k.stride_per_key.map Int.toNat).getD i 0) := by
      rw [← hrepN, map_getD_replicate k.keys.length k.stride.toNat 0 p hpb,
        hpl]
    have hLpairU := blockPermute_pair k.stride_per_key L p pinv
      k.stride_per_key hspkN (hpl.trans hspk_len.symm)
      (hpinvl.trans hspk_len.symm)
      (fun i hi => by rw [hspk_len]; exact hpb i hi)
      (fun i hi => by rw [hspk_len]; exact hpinvb i hi)
      (fun j hj => hcomp j (by rw [← hspk_len]; exact hj)) hs2lU
    have hGlenU : (p.map (fun i => (splitBySizes
        (k.stride_per_key.map Int.toNat) L).getD i [])).map List.length
        = List.replicate p.length k.stride.toNat := by
      rw [List.map_map, List.eq_replicate_iff]
      refine ⟨by simp, ?_⟩
      intro b hb
      simp only [List.mem_map, Function.comp_apply] at hb
      obtain ⟨i, hi, hbi⟩ := hb
      rw [← hbi]
      have hib : i < (splitBySizes (k.stride_per_key.map Int.toNat)
          L).length := by
        rw [splitBySizes_length, List.length_map, hspk_len]
        exact hpb i hi
      calc ((splitBySizes (k.stride_per_key.map Int.toNat) L).getD i []).length
          = ((splitBySizes (k.stride_per_key.map Int.toNat) L).map
              List.length).getD i 0 :=
            (getD_map_of_lt List.length _ hib ([] : List Int) 0).symm
        _ = (k.stride_per_key.map Int.toNat).getD i 0 := by
            rw [map_length_splitBySizes (le_of_eq hspkN)]
        _ = k.stride.toNat := by
            rw [← hrepN, List.getD_eq_getElem _ 0
              (by rw [List.length_replicate]; exact hpb i hi),
              List.getElem_replicate]
    have hGlen2U : (p.map (fun i => (splitBySizes
        (k.stride_per_key.map Int.toNat) L).getD i [])).map List.length
        = k.stride_per_key.map Int.toNat := by
      rw [hGlenU, hpl, hrepN]
    have hPLlen : ((p.map (fun i => (splitBySizes
        (k.stride_per_key.map Int.toNat) L).getD i [])).flatten).length
        = L.length := by
      rw [List.length_flatten, hGlen2U]
      exact hspkN
    have hrow2 : (((p.map (fun i => (splitBySizes
        (k.stride_per_key.map Int.toNat) L).getD i [])).flatten).length : Int)
        / (k.keys.length : Int) = k.stride := by
      rw [hPLlen, hrow]
    have hsplitPL : splitBySizes (k.stride_per_key.map Int.toNat)
        ((p.map (fun i => (splitBySizes (k.stride_per_key.map Int.toNat)
          L).getD i [])).flatten)
        = p.map (fun i => (splitBySizes (k.stride_per_key.map Int.toNat)
            L).getD i []) := by
      nth_rewrite 1 [← hGlen2U]
      rw [splitBySizes_flatten]
    have hvs2U : (p.map (fun i => (splitBySizes (k.stride_per_key.map
        Int.toNat) L).getD i [])).map List.sum
        = p.map (fun i => k.computeLengthPerKey.getD i 0) := by
      rw [List.map_map]
      apply List.map_congr_left
      intro i hi
      simp only [Function.comp_apply]
      have hib : i < (splitBySizes (k.stride_per_key.map Int.toNat)
          L).length := by
        rw [splitBySizes_length, List.length_map, hspk_len]
        exact hpb i hi
      calc List.sum ((splitBySizes (k.stride_per_key.map Int.toNat) L).getD
            i [])
          = ((splitBySizes (k.stride_per_key.map Int.toNat) L).map
              List.sum).getD i 0 :=
            (getD_map_of_lt List.sum _ hib ([] : List Int) 0).symm
        _ = k.computeLengthPerKey.getD i 0 := by rw [hvalSizes]
    have hPKlen : (p.map (fun i => k.keys.getD i "")).length
        = k.keys.length := by
      rw [List.length_map, hpl]
    have hgspprU2 : gatherE (List.replicate k.keys.length [k.stride]) pinv
        = .ok k.stride_per_key_per_rank := by
      rw [gatherE_ok ([] : List Int)
        (fun i hi => by rw [List.length_replicate]; exact hpinvb i hi)]
      rw [map_getD_replicate k.keys.length [k.stride] [] pinv hpinvb, hpinvl,
        ← hsppr_rep]
    cases hkw : k.weights with
    | none =>
      have hstep1 : ∃ k1, k.permute p = .ok k1
          ∧ k1.keys = p.map (fun i => k.keys.getD i "")
          ∧ k1.values = (p.map (fun i => (splitBySizes
              (k.computeLengthPerKey.map Int.toNat) k.values).getD i
                [])).flatten
          ∧ k1.weights = none
          ∧ k1.lengths = some ((p.map (fun i => (splitBySizes
              (k.stride_per_key.map Int.toNat) L).getD i [])).flatten)
          ∧ k1.stride_per_key_per_rank = List.replicate
              (p.map (fun i => k.keys.getD i "")).length [k.stride]
          ∧ k1.variable_stride_per_key = false
          ∧ k1.stride = k.stride
          ∧ k1.length_per_key
              = some (p.map (fun i => k.computeLengthPerKey.getD i 0)) := by
        simp only [KeyedJaggedTensor.permute, hgk, hgsppr, hglpk, hlensM,
          hvar, Bool.false_eq_true, if_false, hkw, hrow, hrepN, hrepZ,
          hvalSizes, hVpair.1, hLpairU.1, bind, exceptBind_ok, pure,
          Except.pure, hcondpk, if_true, init_uniform_eval]
        exact ⟨_, rfl, rfl, rfl, rfl, rfl, rfl, rfl, rfl, rfl⟩
      obtain ⟨k1, hp1, hk1k, hk1v, hk1w, hk1l, hk1sp, hk1var, hk1st,
        hk1lpk⟩ := hstep1
      have hk1clpk : k1.computeLengthPerKey
          = p.map (fun i => k.computeLengthPerKey.getD i 0) :=
        computeLengthPerKey_some k1 _ hk1lpk
      have hk1lM : k1.lengthsM = .ok ((p.map (fun i => (splitBySizes
          (k.stride_per_key.map Int.toNat) L).getD i [])).flatten) := by
        simp [KeyedJaggedTensor.lengthsM, hk1l]
      have hstep2 : ∃ k2, k1.permute pinv = .ok k2
          ∧ k2.keys = k.keys ∧ k2.values = k.values ∧ k2.weights = none
          ∧ k2.lengths = some L
          ∧ k2.stride_per_key_per_rank = k.stride_per_key_per_rank := by
        simp only [KeyedJaggedTensor.permute, hk1clpk, hk1k, hk1sp, hk1lM,
          hk1var, Bool.false_eq_true, if_false, hk1v, hk1w, hk1st, hPKlen,
          hgk2, hgspprU2, hglpk2, hrow2, hrepN, hrepZ, hsplitPL, hvs2U,
          hVpair.2, hLpairU.2, bind, exceptBind_ok, pure, Except.pure,
          hcondk, if_true, init_uniform_eval]
        exact ⟨_, rfl, rfl, rfl, rfl, rfl, hsppr_rep.symm⟩
      obtain ⟨k2, hp2, h2k, h2v, h2w, h2l, h2sp⟩ := hstep2
      exact ⟨k1, k2, hp1, hp2, h2k, h2v, h2w, h2l, h2sp⟩
    | some w =>
      have hWp := blockPermute_pair k.computeLengthPerKey w p pinv
        (p.map (fun i => k.computeLengthPerKey.getD i 0))
        (by rw [hclpkN, h.weights_len w hkw])
        (hpl.trans hclpk_len.symm) (hpinvl.trans hclpk_len.symm)
        (fun i hi => by rw [hclpk_len]; exact hpb i hi)
        (fun i hi => by rw [hclpk_len]; exact hpinvb i hi)
        (fun j hj => hcomp j (by rw [← hclpk_len]; exact hj)) hs2v
      have hstep1 : ∃ k1, k.permute p = .ok k1
          ∧ k1.keys = p.map (fun i => k.keys.getD i "")
          ∧ k1.values = (p.map (fun i => (splitBySizes
              (k.computeLengthPerKey.map Int.toNat) k.values).getD i
                [])).flatten
          ∧ k1.weights = some ((p.map (fun i => (splitBySizes
              (k.computeLengthPerKey.map Int.toNat) w).getD i [])).flatten)
          ∧ k1.lengths = some ((p.map (fun i => (splitBySizes
              (k.stride_per_key.map Int.toNat) L).getD i [])).flatten)
          ∧ k1.stride_per_key_per_rank = List.replicate
              (p.map (fun i => k.keys.getD i "")).length [k.stride]
          ∧ k1.variable_stride_per_key = false
          ∧ k1.stride = k.stride
          ∧ k1.length_per_key
              = some (p.map (fun i => k.computeLengthPerKey.getD i 0)) := by
        simp only [KeyedJaggedTensor.permute, hgk, hgsppr, hglpk, hlensM,
          hvar, Bool.false_eq_true, if_false, hkw, hrow, hrepN, hrepZ,
          hvalSizes, hVpair.1, hLpairU.1, hWp.1, bind, exceptBind_ok, pure,
          Except.pure, hcondpk, if_true, init_uniform_eval]
        exact ⟨_, rfl, rfl, rfl, rfl, rfl, rfl, rfl, rfl, rfl⟩
      obtain ⟨k1, hp1, hk1k, hk1v, hk1w, hk1l, hk1sp, hk1var, hk1st,
        hk1lpk⟩ := hstep1
      have hk1clpk : k1.computeLengthPerKey
          = p.map (fun i => k.computeLengthPerKey.getD i 0) :=
        computeLengthPerKey_some k1 _ hk1lpk
      have hk1lM : k1.lengthsM = .ok ((p.map (fun i => (splitBySizes
          (k.stride_per_key.map Int.toNat) L).getD i [])).flatten) := by
        simp [KeyedJaggedTensor.lengthsM, hk1l]
      have hstep2 : ∃ k2, k1.permute pinv = .ok k2
          ∧ k2.keys = k.keys ∧ k2.values = k.values ∧ k2.weights = some w
          ∧ k2.lengths = some L
          ∧ k2.stride_per_key_per_rank = k.stride_per_key_per_rank := by
        simp only [KeyedJaggedTensor.permute, hk1clpk, hk1k, hk1sp, hk1lM,
          hk1var, Bool.false_eq_true, if_false, hk1v, hk1w, hk1st, hPKlen,
          hgk2, hgspprU2, hglpk2, hrow2, hrepN, hrepZ, hsplitPL, hvs2U,
          hVpair.2, hLpairU.2, hWp.2, bind, exceptBind_ok, pure, Except.pure,
          hcondk, if_true, init_uniform_eval]
        exact ⟨_, rfl, rfl, rfl, rfl, rfl, hsppr_rep.symm⟩
      obtain ⟨k2, hp2, h2k, h2v, h2w, h2l, h2sp⟩ := hstep2
      exact ⟨k1, k2, hp1, hp2, h2k, h2v, h2w, h2l, h2sp⟩
  · -- variable-stride batch
    have hs2l : ((p.map (fun i => k.stride_per_key_per_rank.getD i [])).map
        List.sum).map Int.toNat
        = p.map (fun i => (k.stride_per_key.map Int.toNat).getD i 0) := by
      rw [List.map_map, List.map_map]
      apply List.map_congr_left
      intro i hi
      simp only [Function.comp_apply]
      rw [KeyedJaggedTensor.stride_per_key, List.map_map]
      exact (getD_map_of_lt (Int.toNat ∘ List.sum) _
        (by rw [h.sppr_len]; exact hpb i hi) ([] : List Int) 0).symm
    have hLpairV := blockPermute_pair k.stride_per_key L p pinv
      ((p.map (fun i => k.stride_per_key_per_rank.getD i [])).map List.sum)
      hspkN (hpl.trans hspk_len.symm) (hpinvl.trans hspk_len.symm)
      (fun i hi => by rw [hspk_len]; exact hpb i hi)
      (fun i hi => by rw [hspk_len]; exact hpinvb i hi)
      (fun j hj => hcomp j (by rw [← hspk_len]; exact hj)) hs2l
    cases hkw : k.weights with
    | none =>
      have hstep1 : ∃ k1, k.permute p = .ok k1
          ∧ k1.keys = p.map (fun i => k.keys.getD i "")
          ∧ k1.values = (p.map (fun i => (splitBySizes
              (k.computeLengthPerKey.map Int.toNat) k.values).getD i
                [])).flatten
          ∧ k1.weights = none
          ∧ k1.lengths = some ((p.map (fun i => (splitBySizes
              (k.stride_per_key.map Int.toNat) L).getD i [])).flatten)
          ∧ k1.stride_per_key_per_rank
              = p.map (fun i => k.stride_per_key_per_rank.getD i [])
          ∧ k1.variable_stride_per_key = true
          ∧ k1.length_per_key
              = some (p.map (fun i => k.computeLengthPerKey.getD i 0)) := by
        simp only [KeyedJaggedTensor.permute, hgk, hgsppr, hglpk, hlensM,
          hvar, eq_self_iff_true, if_true, hkw, hVpair.1, hLpairV.1, bind,
          exceptBind_ok, pure, Except.pure, hcondpk, init_variable_eval]
        exact ⟨_, rfl, rfl, rfl, rfl, rfl, rfl, rfl, rfl⟩
      obtain ⟨k1, hp1, hk1k, hk1v, hk1w, hk1l, hk1sp, hk1var, hk1lpk⟩ :=
        hstep1
      have hk1clpk : k1.computeLengthPerKey
          = p.map (fun i => k.computeLengthPerKey.getD i 0) :=
        computeLengthPerKey_some k1 _ hk1lpk
      have hk1lM : k1.lengthsM = .ok ((p.map (fun i => (splitBySizes
          (k.stride_per_key.map Int.toNat) L).getD i [])).flatten) := by
        simp [KeyedJaggedTensor.lengthsM, hk1l]
      have hk1spk : k1.stride_per_key
          = (p.map (fun i => k.stride_per_key_per_rank.getD i [])).map
              List.sum := by
        rw [KeyedJaggedTensor.stride_per_key, hk1sp]
      have hstep2 : ∃ k2, k1.permute pinv = .ok k2
          ∧ k2.keys = k.keys ∧ k2.values = k.values ∧ k2.weights = none
          ∧ k2.lengths = some L
          ∧ k2.stride_per_key_per_rank = k.stride_per_key_per_rank := by
        simp only [KeyedJaggedTensor.permute, hk1clpk, hk1k, hk1sp, hk1lM,
          hk1var, eq_self_iff_true, if_true, hk1v, hk1w, hk1spk, hgk2,
          hgsppr2, hglpk2, hVpair.2, hLpairV.2, bind, exceptBind_ok, pure,
          Except.pure, hcondk, init_variable_eval]
        exact ⟨_, rfl, rfl, rfl, rfl, rfl, rfl⟩
      obtain ⟨k2, hp2, h2k, h2v, h2w, h2l, h2sp⟩ := hstep2
      exact ⟨k1, k2, hp1, hp2, h2k, h2v, h2w, h2l, h2sp⟩
    | some w =>
      have hWp := blockPermute_pair k.computeLengthPerKey w p pinv
        (p.map (fun i => k.computeLengthPerKey.getD i 0))
        (by rw [hclpkN, h.weights_len w hkw])
        (hpl.trans hclpk_len.symm) (hpinvl.trans hclpk_len.symm)
        (fun i hi => by rw [hclpk_len]; exact hpb i hi)
        (fun i hi => by rw [hclpk_len]; exact hpinvb i hi)
        (fun j hj => hcomp j (by rw [← hclpk_len]; exact hj)) hs2v
      have hstep1 : ∃ k1, k.permute p = .ok k1
          ∧ k1.keys = p.map (fun i => k.keys.getD i "")
          ∧ k1.values = (p.map (fun i => (splitBySizes
              (k.computeLengthPerKey.map Int.toNat) k.values).getD i
                [])).flatten
          ∧ k1.weights = some ((p.map (fun i => (splitBySizes
              (k.computeLengthPerKey.map Int.toNat) w).getD i [])).flatten)
          ∧ k1.lengths = some ((p.map (fun i => (splitBySizes
              (k.stride_per_key.map Int.toNat) L).getD i [])).flatten)
          ∧ k1.stride_per_key_per_rank
              = p.map (fun i => k.stride_per_key_per_rank.getD i [])
          ∧ k1.variable_stride_per_key = true
          ∧ k1.length_per_key
              = some (p.map (fun i => k.computeLengthPerKey.getD i 0)) := by
        simp only [KeyedJaggedTensor.permute, hgk, hgsppr, hglpk, hlensM,
          hvar, eq_self_iff_true, if_true, hkw, hVpair.1, hLpairV.1, hWp.1,
          bind, exceptBind_ok, pure, Except.pure, hcondpk,
          init_variable_eval]
        exact ⟨_, rfl, rfl, rfl, rfl, rfl, rfl, rfl, rfl⟩
      obtain ⟨k1, hp1, hk1k, hk1v, hk1w, hk1l, hk1sp, hk1var, hk1lpk⟩ :=
        hstep1
      have hk1clpk : k1.computeLengthPerKey
          = p.map (fun i => k.computeLengthPerKey.getD i 0) :=
        computeLengthPerKey_some k1 _ hk1lpk
      have hk1lM : k1.lengthsM = .ok ((p.map (fun i => (splitBySizes
          (k.stride_per_key.map Int.toNat) L).getD i [])).flatten) := by
        simp [KeyedJaggedTensor.lengthsM, hk1l]
      have hk1spk : k1.stride_per_key
          = (p.map (fun i => k.stride_per_key_per_rank.getD i [])).map
              List.sum := by
        rw [KeyedJaggedTensor.stride_per_key, hk1sp]
      have hstep2 : ∃ k2, k1.permute pinv = .ok k2
          ∧ k2.keys = k.keys ∧ k2.values = k.values ∧ k2.weights = some w
          ∧ k2.lengths = some L
          ∧ k2.stride_per_key_per_rank = k.stride_per_key_per_rank := by
        simp only [KeyedJaggedTensor.permute, hk1clpk, hk1k, hk1sp, hk1lM,
          hk1var, eq_self_iff_true, if_true, hk1v, hk1w, hk1spk, hgk2,
          hgsppr2, hglpk2, hVpair.2, hLpairV.2, hWp.2, bind, exceptBind_ok,
          pure, Except.pure, hcondk, init_variable_eval]
        exact ⟨_, rfl, rfl, rfl, rfl, rfl, rfl⟩
      obtain ⟨k2, hp2, h2k, h2v, h2w, h2l, h2sp⟩ := hstep2
      exact ⟨k1, k2, hp1, hp2, h2k, h2v, h2w, h2l, h2sp⟩

/-- C7 witness: the concrete valid two-key weighted batch and the permutation
`[1, 0]` (its own inverse) round-trip through two `permute` calls. -/
theorem C7_witness :
    ([1, 0] : List Nat).length
        = (KeyedJaggedTensor.mk ["u", "v"] [7, 8, 9] (some [70, 80, 90])
            (some [1, 0, 2, 0]) none 2 [[2], [2]] false none
            none).keys.length
    ∧ (∀ i ∈ ([1, 0] : List Nat), i < (KeyedJaggedTensor.mk ["u", "v"]
        [7, 8, 9] (some [70, 80, 90]) (some [1, 0, 2, 0]) none 2 [[2], [2]]
        false none none).keys.length)
    ∧ (∀ j, j < (KeyedJaggedTensor.mk ["u", "v"] [7, 8, 9] (some [70, 80, 90])
        (some [1, 0, 2, 0]) none 2 [[2], [2]] false none
        none).keys.length →
        ([1, 0] : List Nat).getD (([1, 0] : List Nat).getD j 0) 0 = j)
    ∧ (∃ k1 k2,
        (KeyedJaggedTensor.mk ["u", "v"] [7, 8, 9] (some [70, 80, 90])
            (some [1, 0, 2, 0]) none 2 [[2], [2]] false none
            none).permute [1, 0] = .ok k1
        ∧ k1.permute [1, 0] = .ok k2
        ∧ k2.keys = (KeyedJaggedTensor.mk ["u", "v"] [7, 8, 9]
            (some [70, 80, 90]) (some [1, 0, 2, 0]) none 2 [[2], [2]] false
            none none).keys
        ∧ k2.values = (KeyedJaggedTensor.mk ["u", "v"] [7, 8, 9]
            (some [70, 80, 90]) (some [1, 0, 2, 0]) none 2 [[2], [2]] false
            none none).values
        ∧ k2.weights = (KeyedJaggedTensor.mk ["u", "v"] [7, 8, 9]
            (some [70, 80, 90]) (some [1, 0, 2, 0]) none 2 [[2], [2]] false
            none none).weights
        ∧ k2.lengths = some [1, 0, 2, 0]
        ∧ k2.stride_per_key_per_rank = (KeyedJaggedTensor.mk ["u", "v"]
            [7, 8, 9] (some [70, 80, 90]) (some [1, 0, 2, 0]) none 2
            [[2], [2]] false none none).stride_per_key_per_rank) :=
  ⟨by decide, by decide, by decide,
    C7_permute_roundtrip
      (k := KeyedJaggedTensor.mk ["u", "v"] [7, 8, 9] (some [70, 80, 90])
        (some [1, 0, 2, 0]) none 2 [[2], [2]] false none none)
      (L := [1, 0, 2, 0])
      { src := Or.inl ⟨rfl, rfl⟩
        len_nonneg := by decide
        len_total := by decide
        weights_len := by
          intro w hw
          simp only [Option.some.injEq] at hw
          subst hw
          rfl
        sppr_len := rfl
        spk_nonneg := by decide
        spk_total := by decide
        uniform_sppr := fun _ => ⟨rfl, by decide⟩
        uniform_offsets_pos := by intro _ hl; simp at hl
        lpk_none := rfl
        opk_none := rfl
        keys_pos := by decide }
      [1, 0] [1, 0] (by decide) (by decide) (by decide) (by decide)
      (by decide)⟩
